import Mathlib

/-!
Verification of the metalsmith-search content-extraction and
index-construction pipeline.

Strings are modelled as `List Char` (one JS UTF-16 unit per `Char` for the
ASCII inputs considered here); each definition mirrors one function of the
source, translated statement by statement.  Regex-based operations are
modelled by equivalent character scanners, documented at each definition.
-/

namespace MSearch

/-- The JS regex class `\s` (whitespace), restricted to the standard ASCII
whitespace characters that occur in the inputs considered here. -/
def isWs (c : Char) : Bool :=
  c == ' ' || c == '\t' || c == '\n' || c == '\r' || c == '\x0b' || c == '\x0c'

/-- The JS regex class `\w`: ASCII letters, digits and underscore. -/
def isWordChar (c : Char) : Bool :=
  c.isAlphanum || c == '_'

/-- `String.prototype.trim`: drop whitespace from both ends. -/
def trimChars (l : List Char) : List Char :=
  ((l.dropWhile isWs).reverse.dropWhile isWs).reverse

/-- One global replacement pass of the regex `/<[^>]+>/g` (used both by
`cleanTextForAnchor` and by the html-stripper's `stripTags`): from each `<`,
everything up to the next `>` is removed provided at least one character
stands between them; an unmatched `<`, or `<>`, is kept verbatim.
`buf` holds (reversed) the characters consumed since the pending `<`. -/
def removeTagsGo : List Char → Option (List Char) → List Char
  | [], none => []
  | [], some buf => '<' :: buf.reverse
  | c :: rest, none =>
      if c == '<' then removeTagsGo rest (some [])
      else c :: removeTagsGo rest none
  | c :: rest, some buf =>
      if c == '>' then
        if buf.isEmpty then '<' :: '>' :: removeTagsGo rest none
        else removeTagsGo rest none
      else removeTagsGo rest (some (c :: buf))

/-- `text.replace(/<[^>]+>/g, '')`. -/
def removeTags (l : List Char) : List Char :=
  removeTagsGo l none

/-- One global replacement pass of `/X+/g → sep` where `X` is the class
decided by `p`: every maximal run of `p`-characters becomes a single `sep`.
The Boolean records whether the previous character was in a run. -/
def collapseRunsGo (p : Char → Bool) (sep : Char) : List Char → Bool → List Char
  | [], _ => []
  | c :: rest, inRun =>
      if p c then
        if inRun then collapseRunsGo p sep rest true
        else sep :: collapseRunsGo p sep rest true
      else c :: collapseRunsGo p sep rest false

/-- `text.replace(/[X]+/g, sep)` for a character class `p`. -/
def collapseRuns (p : Char → Bool) (sep : Char) (l : List Char) : List Char :=
  collapseRunsGo p sep l false

/-- Options of `generateAnchorId`.  The source interpolates `separator` into
regexes; it is modelled as a single regex-literal character (the default
`'-'`, or characters such as `' '`, behave literally there). -/
structure AnchorOptions where
  maxLength : Nat := 50
  anchorPre : List Char := []
  anchorSuf : List Char := []
  allowNumbers : Bool := true
  separator : Char := '-'

/-- `cleanTextForAnchor(text, separator)`: lowercase, remove markup tags,
remove characters outside `[\w\s-]`, collapse `[\s_]+` runs to the
separator, collapse repeated separators, trim separators at both ends. -/
def cleanTextForAnchor (text : List Char) (separator : Char) : List Char :=
  let s1 := text.map Char.toLower
  let s2 := removeTags s1
  let s3 := s2.filter (fun c => isWordChar c || isWs c || c == '-')
  let s4 := collapseRuns (fun c => isWs c || c == '_') separator s3
  let s5 := collapseRuns (· == separator) separator s4
  ((s5.dropWhile (· == separator)).reverse.dropWhile (· == separator)).reverse

/-- `processNumbers(text, allowNumbers)`. -/
def processNumbers (text : List Char) (allowNumbers : Bool) : List Char :=
  if allowNumbers then text else text.filter (fun c => !c.isDigit)

/-- `truncateText(text, maxLength, separator)`: identity when within bounds,
otherwise `substring(0, maxLength)` with the trailing separator run removed
(`replace(new RegExp(sep+'+$'), '')`). -/
def truncateText (text : List Char) (maxLength : Nat) (separator : Char) : List Char :=
  if text.length ≤ maxLength then text
  else ((text.take maxLength).reverse.dropWhile (· == separator)).reverse

/-- `addPrefix(anchor, prefix, separator)`: a non-empty (truthy) prefix is
joined in front with the separator. -/
def addAnchorPre (anchor : List Char) (pre : List Char) (separator : Char) : List Char :=
  if pre.isEmpty then anchor else pre ++ separator :: anchor

/-- `addSuffix(anchor, suffix, separator)`. -/
def addAnchorSuf (anchor : List Char) (suf : List Char) (separator : Char) : List Char :=
  if suf.isEmpty then anchor else anchor ++ separator :: suf

/-- `ensureValidAnchor(anchor)`: `anchor || 'section'`. -/
def ensureValidAnchor (anchor : List Char) : List Char :=
  if anchor.isEmpty then "section".data else anchor

/-- JS values that can reach `generateAnchorId`'s `text` parameter. -/
inductive JSInput where
  | jsNull
  | jsUndefined
  | jsNum (n : Int)
  | jsBool (b : Bool)
  | jsStr (s : List Char)
deriving DecidableEq

/-- `isValidTextInput(text)`: `text && typeof text === 'string'` — a truthy
string, i.e. a non-empty string. -/
def isValidTextInput : JSInput → Bool
  | .jsStr s => !s.isEmpty
  | _ => false

/-- `generateAnchorId(text, options)`: the full pipeline of the
anchor-generator module. -/
def generateAnchorId (text : JSInput) (o : AnchorOptions) : List Char :=
  if !isValidTextInput text then "section".data
  else
    match text with
    | .jsStr s =>
        let a1 := cleanTextForAnchor s o.separator
        let a2 := processNumbers a1 o.allowNumbers
        let a3 := truncateText a2 o.maxLength o.separator
        let a4 := addAnchorPre a3 o.anchorPre o.separator
        let a5 := addAnchorSuf a4 o.anchorSuf o.separator
        ensureValidAnchor a5
    | _ => "section".data

/-- `generateAnchorId` with all-default options, as called by the heading
extractor. -/
def generateAnchorIdDefault (s : List Char) : List Char :=
  generateAnchorId (.jsStr s) {}

/-! ### Decimal rendering (JS template interpolation of a counter) -/

/-- Little-endian decimal digit characters of `n`; `fuel ≥ n` suffices. -/
def natDigitsRev (fuel n : Nat) : List Char :=
  match fuel with
  | 0 => []
  | fuel + 1 =>
      if n = 0 then [] else Char.ofNat (48 + n % 10) :: natDigitsRev fuel (n / 10)

/-- Decimal rendering of a natural number, as JS `${n}` produces it. -/
def natStr (n : Nat) : List Char :=
  if n = 0 then ['0'] else (natDigitsRev n n).reverse

/-- Numeric value of a little-endian digit-character list (used only to
prove `natStr` injective). -/
def valOfRev : List Char → Nat
  | [] => 0
  | c :: rest => (c.toNat - 48) + 10 * valOfRev rest

/-! ### Heading & anchor extractor (content-extractor, HTML-first variant) -/

/-- A heading as the Cheerio walk presents it: tag name, raw text, and the
value of its `id` attribute when present. -/
structure HeadingIn where
  level : List Char
  text : List Char
  attrId : Option (List Char)

/-- An emitted `{level, id, title}` record. -/
structure HeadingOut where
  level : List Char
  id : List Char
  title : List Char
deriving DecidableEq

/-- The `while (usedIds.has(uniqueId))` loop: try `base-c`, `base-(c+1)`, …
until a candidate is not in the used set.  The loop in the source always
terminates because the candidates are pairwise distinct; the fuel mirrors
that argument and is chosen large enough that it is never exhausted. -/
def uniquifyGo (used : List (List Char)) (base : List Char) : Nat → Nat → List Char
  | _, 0 => base
  | c, fuel + 1 =>
      let cand := base ++ '-' :: natStr c
      if cand ∈ used then uniquifyGo used base (c + 1) fuel else cand

/-- Id disambiguation for a generated candidate: keep `base` if unused,
otherwise append `-1`, `-2`, … (first available integer). -/
def uniquify (used : List (List Char)) (base : List Char) : List Char :=
  if base ∈ used then uniquifyGo used base 1 (used.length + 1) else base

/-- `extractAndProcessHeadings`: walk headings in document order carrying
the per-document used-id set.  An existing `id` attribute is kept verbatim
when truthy (non-empty) and recorded as used; otherwise an id is generated
from the trimmed title via `generateAnchorId` and disambiguated. -/
def extractHeadingsGo : List HeadingIn → List (List Char) → List HeadingOut
  | [], _ => []
  | ⟨lvl, txt, some i⟩ :: rest, used =>
      let title := trimChars txt
      if title.isEmpty then extractHeadingsGo rest used
      else
        if i.isEmpty then
          let base := generateAnchorIdDefault title
          let uid := uniquify used base
          ⟨lvl, uid, title⟩ :: extractHeadingsGo rest (uid :: used)
        else
          ⟨lvl, i, title⟩ :: extractHeadingsGo rest (i :: used)
  | ⟨lvl, txt, none⟩ :: rest, used =>
      let title := trimChars txt
      if title.isEmpty then extractHeadingsGo rest used
      else
        let base := generateAnchorIdDefault title
        let uid := uniquify used base
        ⟨lvl, uid, title⟩ :: extractHeadingsGo rest (uid :: used)

/-- `extractAndProcessHeadings($)` on the document-ordered heading list,
starting from a fresh (empty) used-id set. -/
def extractAndProcessHeadings (doc : List HeadingIn) : List HeadingOut :=
  extractHeadingsGo doc []

/-- The id the extractor assigns to the `j`-th of a run of identically
titled headings whose generated slug is `base`: the slug itself first, then
`base-1`, `base-2`, … (notation for stating the disambiguation claim). -/
def headingIdAt (base : List Char) (j : Nat) : List Char :=
  if j = 0 then base else base ++ '-' :: natStr j

/-! ### Canonical URL computation (both content-extractor variants) -/

/-- `s.replace(/SUF$/, '')` for a literal suffix: drop it when present. -/
def stripSuffixL (l suf : List Char) : List Char :=
  if suf.isSuffixOf l then l.take (l.length - suf.length) else l

/-- URL of the HTML-first extractor:
`filename.replace(/\.html$/, '')`, then, when the base is `index` or ends
in `/index`, `replace(/\/?index$/, '') || '/'`; finally a leading slash is
ensured. -/
def urlHtmlFirst (filename : List Char) : List Char :=
  let b1 := stripSuffixL filename ".html".data
  let b2 :=
    if b1 = "index".data || "/index".data.isSuffixOf b1 then
      let r :=
        if "/index".data.isSuffixOf b1 then b1.take (b1.length - 6)
        else if "index".data.isSuffixOf b1 then b1.take (b1.length - 5)
        else b1
      if r.isEmpty then "/".data else r
    else b1
  if b2.head? = some '/' then b2 else '/' :: b2

/-- URL of the component-based extractor:
`filename.replace(/\.md$|\.html$/, '').replace(/\/index$/, '') || '/'`,
then a leading slash is ensured. -/
def urlComponent (filename : List Char) : List Char :=
  let b1 :=
    if ".md".data.isSuffixOf filename then filename.take (filename.length - 3)
    else stripSuffixL filename ".html".data
  let b2 := stripSuffixL b1 "/index".data
  let b3 := if b2.isEmpty then "/".data else b2
  if b3.head? = some '/' then b3 else '/' :: b3

/-! ### HTML stripper (regex variant) -/

/-- Case-insensitive literal match at the head of `l`: when the lowercased
`l` starts with `pat` (given in lowercase), return the remainder. -/
def matchCI : List Char → List Char → Option (List Char)
  | [], l => some l
  | _ :: _, [] => none
  | p :: ps, c :: cs => if c.toLower == p then matchCI ps cs else none

/-- The lazy `[\s\S]*?PAT` search: the remainder after the first
(case-insensitive) occurrence of `pat` in `l`, if any. -/
def findCI (pat : List Char) : List Char → Option (List Char)
  | [] => match matchCI pat [] with
      | some r => some r
      | none => none
  | c :: rest => match matchCI pat (c :: rest) with
      | some r => some r
      | none => findCI pat rest

/-- `<TAG[^>]*>[\s\S]*?</TAG>` anchored at the head of `l` (the script/style
block regexes of `removeScriptsAndStyles`).  Returns the remainder after the
whole block when it matches. -/
def tagBlockAt (openPat closePat : List Char) (l : List Char) : Option (List Char) :=
  match matchCI openPat l with
  | none => none
  | some r1 =>
      match r1.dropWhile (· != '>') with
      | [] => none
      | _ :: r3 => findCI closePat r3

/-- One global-replace regex pass: at each position try the matcher `m`
(which returns the replacement text and the remainder after the consumed
span, always consuming at least one character); on failure copy one
character and move on — exactly how a JS global `replace` scans.  Since each
step consumes at least one input character, `l.length` steps of fuel always
suffice (`scanReplace`). -/
def scanReplaceGo (m : List Char → Option (List Char × List Char)) :
    Nat → List Char → List Char
  | 0, l => l
  | _ + 1, [] => []
  | fuel + 1, c :: rest =>
      match m (c :: rest) with
      | some (rep, r) => rep ++ scanReplaceGo m fuel r
      | none => c :: scanReplaceGo m fuel rest

/-- `l.replace(RE, …)` for the matcher `m`. -/
def scanReplace (m : List Char → Option (List Char × List Char)) (l : List Char) : List Char :=
  scanReplaceGo m l.length l

/-- Matcher of `/<script[^>]*>[\s\S]*?<\/script>/gi` (replacement empty). -/
def scriptMatcher (l : List Char) : Option (List Char × List Char) :=
  (tagBlockAt "<script".data "</script>".data l).map (fun r => ([], r))

/-- Matcher of `/<style[^>]*>[\s\S]*?<\/style>/gi` (replacement empty). -/
def styleMatcher (l : List Char) : Option (List Char × List Char) :=
  (tagBlockAt "<style".data "</style>".data l).map (fun r => ([], r))

/-- `removeScriptsAndStyles(html)`: the script pass, then the style pass. -/
def removeScriptsAndStyles (l : List Char) : List Char :=
  scanReplace styleMatcher (scanReplace scriptMatcher l)

/-- The tag names of the closing-block-element regex of `convertElements`. -/
def closingNames : List (List Char) :=
  ["div", "p", "h1", "h2", "h3", "h4", "h5", "h6", "li", "tr", "section",
    "article", "header", "footer", "main"].map String.data

/-- Matcher of `/<\/(div|p|h[1-6]|li|tr|section|article|header|footer|main)[^>]*>/gi`
(replaced by a newline): `</`, then one of the names (case-insensitive, as a
prefix — the regex has no word boundary), then everything up to the next
`>`. -/
def closingBlockMatcher (l : List Char) : Option (List Char × List Char) :=
  match matchCI "</".data l with
  | none => none
  | some r1 =>
      if closingNames.any (fun nm => (matchCI nm r1).isSome) then
        match r1.dropWhile (· != '>') with
        | [] => none
        | _ :: r3 => some (['\n'], r3)
      else none

/-- Matcher of `/<br\s*\/?>/gi` (replaced by a newline). -/
def brMatcher (l : List Char) : Option (List Char × List Char) :=
  match matchCI "<br".data l with
  | none => none
  | some r1 =>
      let r2 := r1.dropWhile isWs
      let r3 := if r2.head? = some '/' then r2.tail else r2
      if r3.head? = some '>' then some (['\n'], r3.tail) else none

/-- Matcher of `/<hr\s*\/?>/gi` (replaced by `\n---\n`). -/
def hrMatcher (l : List Char) : Option (List Char × List Char) :=
  match matchCI "<hr".data l with
  | none => none
  | some r1 =>
      let r2 := r1.dropWhile isWs
      let r3 := if r2.head? = some '/' then r2.tail else r2
      if r3.head? = some '>' then some ("\n---\n".data, r3.tail) else none

/-- `convertElements(html, preserveLineBreaks)`: closing block tags, `<br>`
and `<hr>` become line breaks. -/
def convertElements (l : List Char) (preserveLineBreaks : Bool) : List Char :=
  if preserveLineBreaks then
    scanReplace hrMatcher (scanReplace brMatcher (scanReplace closingBlockMatcher l))
  else l

/-- The fixed entity table of `decodeEntities`. -/
def entityTable : List (List Char × List Char) :=
  [("&amp;", "&"), ("&lt;", "<"), ("&gt;", ">"), ("&quot;", "\""),
    ("&#39;", "\x27"), ("&apos;", "\x27"), ("&nbsp;", " "), ("&mdash;", "—"),
    ("&ndash;", "–"), ("&hellip;", "…"), ("&copy;", "©"), ("&reg;", "®"),
    ("&trade;", "™")].map (fun p => (p.1.data, p.2.data))

/-- The regex class `[a-zA-Z0-9#]` of the entity pattern. -/
def isEntChar (c : Char) : Bool := c.isAlphanum || c == '#'

/-- Matcher of `/&[a-zA-Z0-9#]+;/g`: a known entity is replaced from the
table, an unknown one is kept as-is. -/
def entityMatcher (l : List Char) : Option (List Char × List Char) :=
  match l with
  | '&' :: rest =>
      let run := rest.takeWhile isEntChar
      if run.isEmpty then none
      else
        match rest.drop run.length with
        | ';' :: tl =>
            let token := '&' :: (run ++ [';'])
            some ((entityTable.lookup token).getD token, tl)
        | _ => none
  | _ => none

/-- `decodeEntities(text)`. -/
def decodeEntitiesL (l : List Char) : List Char := scanReplace entityMatcher l

/-- Matcher of `/\n\s+/g → '\n'`: a newline followed by more whitespace;
the greedy `\s+` takes the whole following run. -/
def nlWsMatcher (l : List Char) : Option (List Char × List Char) :=
  match l with
  | '\n' :: c :: rest =>
      if isWs c then some (['\n'], (c :: rest).dropWhile isWs) else none
  | _ => none

/-- Matcher of `/\s+\n/g → '\n'`: a maximal whitespace run matched up to its
last newline, which (after backtracking of the greedy `\s+`) must not be the
first character of the run. -/
def wsNlMatcher (l : List Char) : Option (List Char × List Char) :=
  match l with
  | c :: _ =>
      if isWs c then
        let run := l.takeWhile isWs
        match run.reverse.findIdx? (· == '\n') with
        | some ridx =>
            let j := run.length - 1 - ridx
            if 1 ≤ j then some (['\n'], l.drop (j + 1)) else none
        | none => none
      else none
  | [] => none

/-- Matcher of `/\n{3,}/g → '\n\n'`. -/
def manyNlMatcher (l : List Char) : Option (List Char × List Char) :=
  let run := l.takeWhile (· == '\n')
  if 3 ≤ run.length then some (['\n', '\n'], l.drop run.length) else none

/-- `cleanWhitespace(text, flag)`: collapse all whitespace runs to single
spaces, then the three newline clean-ups. -/
def cleanWhitespaceL (text : List Char) (flag : Bool) : List Char :=
  if flag then
    scanReplace manyNlMatcher
      (scanReplace wsNlMatcher (scanReplace nlWsMatcher (collapseRuns isWs ' ' text)))
  else text

/-- Toggles of the regex-variant `stripHtml`, all defaulting to `true`. -/
structure StripOptions where
  preserveLineBreaks : Bool := true
  cleanWhitespaceFlag : Bool := true
  decodeEntitiesFlag : Bool := true

/-- The regex-variant `stripHtml(html, options)` pipeline.  A falsy or
non-string `html` (modelled by the empty list) yields the empty string. -/
def stripHtmlRegex (html : List Char) (o : StripOptions) : List Char :=
  if html.isEmpty then []
  else
    let t1 := removeScriptsAndStyles html
    let t2 := convertElements t1 o.preserveLineBreaks
    let t3 := removeTags t2
    let t4 := if o.decodeEntitiesFlag then decodeEntitiesL t3 else t3
    trimChars (cleanWhitespaceL t4 o.cleanWhitespaceFlag)

/-! ### Nested field resolver (content-extractor, component variant) -/

/-- A frontmatter content tree: strings, plain objects (field lists in key
order), arrays, and other scalars (numbers, booleans, null — none of which
is a string or a plain object for the resolver's checks). -/
inductive JVal where
  | vstr (s : String)
  | vatom
  | varr (elems : List JVal)
  | vobj (fields : List (String × JVal))

/-- `obj[targetField]` followed by the `typeof === 'string'` check. -/
def lookupStr (fields : List (String × JVal)) (t : String) : Option String :=
  match fields.lookup t with
  | some (.vstr s) => some s
  | _ => none

mutual
/-- `findNestedField(obj, targetField)`.  The fuel models the JS call stack
(the source recurses without a depth bound); any fuel at least the number of
nodes of the object gives the source's behaviour.  A non-object (or null)
returns the not-found signal; a truthy directly-owned string is returned at
once; otherwise every own property in key order is searched, recursing only
into plain-object values (`!Array.isArray`), and a falsy (empty) result from
a branch is skipped exactly as `if (result)` does. -/
def findNestedFieldF : Nat → JVal → String → Option String
  | 0, _, _ => none
  | fuel + 1, v, t =>
      match v with
      | .vobj fields =>
          match lookupStr fields t with
          | some s => if s ≠ "" then some s else findInValsF fuel (fields.map Prod.snd) t
          | none => findInValsF fuel (fields.map Prod.snd) t
      | .varr elems => findInValsF fuel elems t
      | _ => none

/-- The `for (const key in obj)` loop of `findNestedField` over the property
values in key order. -/
def findInValsF : Nat → List JVal → String → Option String
  | 0, _, _ => none
  | _ + 1, [], _ => none
  | fuel + 1, v :: rest, t =>
      match v with
      | .vobj fs =>
          match findNestedFieldF fuel (.vobj fs) t with
          | some s => if s ≠ "" then some s else findInValsF fuel rest t
          | none => findInValsF fuel rest t
      | _ => findInValsF fuel rest t
end

/-! ### Content segmenter (`splitLongContent`) -/

/-- The sentence-ending class `[.!?]` of the split pattern. -/
def isSentEnd (c : Char) : Bool := c == '.' || c == '!' || c == '?'

/-- `content.split(/(?<=[.!?])\s+/)`: a whitespace run whose preceding
character is sentence-ending punctuation separates pieces and is dropped.
`cur` is the piece being built (reversed); the flag marks that we are inside
a separator run. -/
def splitSentencesGo : List Char → List Char → Bool → List (List Char)
  | [], cur, _ => [cur.reverse]
  | c :: rest, cur, true =>
      if isWs c then splitSentencesGo rest cur true
      else splitSentencesGo rest [c] false
  | c :: rest, cur, false =>
      if isWs c ∧ cur.head?.any isSentEnd then
        cur.reverse :: splitSentencesGo rest [] true
      else splitSentencesGo rest (c :: cur) false

/-- The sentence list of `splitLongContent`. -/
def splitSentences (content : List Char) : List (List Char) :=
  splitSentencesGo content [] false

/-- `currentChunk += (currentChunk ? ' ' : '') + sentence`. -/
def joinStep (cur s : List Char) : List Char :=
  if cur.isEmpty then s else cur ++ ' ' :: s

/-- The accumulation loop of `splitLongContent`: when adding the next
sentence to a non-empty chunk would exceed `maxLength`, the (trimmed)
current chunk is emitted and the sentence starts a new one; the final chunk
is emitted only when its trimmed text is non-empty. -/
def chunkGo (maxLength : Nat) : List (List Char) → List Char → List (List Char)
  | [], cur => if (trimChars cur).isEmpty then [] else [trimChars cur]
  | s :: rest, cur =>
      if maxLength < cur.length + s.length ∧ 0 < cur.length then
        trimChars cur :: chunkGo maxLength rest s
      else chunkGo maxLength rest (joinStep cur s)

/-- `splitLongContent(content, maxLength)` (default `maxLength` 1500). -/
def splitLongContent (content : List Char) (maxLength : Nat) : List (List Char) :=
  chunkGo maxLength (splitSentences content) []

/-- The text a run of sentences contributes to a chunk: the sentences
joined by single spaces, exactly as repeated `joinStep`s build it (notation
for stating the chunking claim). -/
def joinSpace (g : List (List Char)) : List Char :=
  g.foldl joinStep []

/-! ### Index builder (search-indexer) -/

/-- The allowlist `[\w\s\-.,!?;:'"()]` of `cleanText`. -/
def allowedPunct (c : Char) : Bool :=
  isWordChar c || isWs c || c == '-' || c == '.' || c == ',' || c == '!' ||
    c == '?' || c == ';' || c == ':' || c == '\x27' || c == '"' || c == '(' || c == ')'

/-- `cleanText(text)`: trim, collapse whitespace runs to single spaces,
strip characters outside the allowlist, truncate to 2000. -/
def cleanTextIdx (text : List Char) : List Char :=
  ((collapseRuns isWs ' ' (trimChars text)).filter allowedPunct).take 2000

/-- JS field values occurring in an optimized search entry. -/
inductive JSVal where
  | vnull
  | vundef
  | vnum (n : Int)
  | vstr (s : List Char)
  | vbool (b : Bool)
  | varrS (elems : List (List Char))
  | varrH (elems : List HeadingOut)
deriving DecidableEq

/-- JS truthiness of these values. -/
def truthy : JSVal → Bool
  | .vnull => false
  | .vundef => false
  | .vnum n => n != 0
  | .vstr s => !s.isEmpty
  | .vbool b => b
  | .varrS _ => true
  | .varrH _ => true

/-- `Array.isArray`. -/
def isArrayV : JSVal → Bool
  | .varrS _ => true
  | .varrH _ => true
  | _ => false

/-- `removeEmptyFields(obj)`: keep an entry when its value is not `null`,
not `undefined`, not the empty string, and is an array or truthy. -/
def removeEmptyFields (obj : List (String × JSVal)) : List (String × JSVal) :=
  obj.filter (fun kv =>
    kv.2 != JSVal.vnull && kv.2 != JSVal.vundef && kv.2 != JSVal.vstr [] &&
      (isArrayV kv.2 || truthy kv.2))

/-- A raw search entry as the extractor hands it to the indexer.  Absent or
falsy JS fields are the empty string (resp. `none` for the arrays), which is
what every guard in the source tests for. -/
structure RawEntry where
  id : List Char := []
  type : List Char := []
  url : List Char := []
  title : List Char := []
  content : List Char := []
  description : List Char := []
  excerpt : List Char := []
  tags : Option (List (List Char)) := none
  date : List Char := []
  author : List Char := []
  headings : Option (List HeadingOut) := none

/-- One step of `optimizeEntriesForSearch` (search-indexer processor): the
optimized object in insertion order — defaulted `id`/`type`/`url`, cleaned
`title`/`content`, the conditional spreads, and finally `score: 0` — then
passed through `removeEmptyFields`. -/
def optimizeEntry (idx : Nat) (e : RawEntry) : List (String × JSVal) :=
  let part1 : List (String × JSVal) :=
    [("id", .vstr (if e.id.isEmpty then "entry-".data ++ natStr idx else e.id)),
      ("type", .vstr (if e.type.isEmpty then "page".data else e.type)),
      ("url", .vstr (if e.url.isEmpty then "/".data else e.url)),
      ("title", .vstr (cleanTextIdx e.title)),
      ("content", .vstr (cleanTextIdx e.content))] ++
    (if e.description.isEmpty then [] else [("description", .vstr (cleanTextIdx e.description))]) ++
    (if e.excerpt.isEmpty then [] else [("excerpt", .vstr (cleanTextIdx e.excerpt))]) ++
    (match e.tags with
      | some ts => [("tags", JSVal.varrS ts)]
      | none => []) ++
    (if e.date.isEmpty then [] else [("date", .vstr e.date)]) ++
    (if e.author.isEmpty then [] else [("author", .vstr e.author)]) ++
    (match e.headings with
      | some hs => if 0 < hs.length then [("headings", JSVal.varrH hs)] else []
      | none => [])
  removeEmptyFields (part1 ++ [("score", JSVal.vnum 0)])

/-- `optimizeEntriesForSearch(entries)`: `entries.map((entry, index) => …)`. -/
def optimizeEntriesForSearch (entries : List RawEntry) : List (List (String × JSVal)) :=
  entries.enum.map (fun p => optimizeEntry p.1 p.2)

/-- `stats.entriesByType[t] = (stats.entriesByType[t] || 0) + 1` on an
insertion-ordered counter list. -/
def bumpCount : List (List Char × Nat) → List Char → List (List Char × Nat)
  | [], t => [(t, 1)]
  | (k, n) :: rest, t =>
      if k = t then (k, n + 1) :: rest else (k, n) :: bumpCount rest t

/-- The `stats` object of the index. -/
structure IndexStats where
  totalEntries : Nat
  entriesByType : List (List Char × Nat)
  averageContentLength : Nat
  totalContentLength : Nat
deriving DecidableEq

/-- `generateIndexStats(entries)`.  `Math.round` on the non-negative ratio
`total/len` is `(2*total + len) / (2*len)` in integer arithmetic. -/
def generateIndexStats (entries : List (List (String × JSVal))) : IndexStats :=
  let byType := entries.foldl (fun acc e =>
    let t := match e.lookup "type" with
      | some (.vstr t) => t
      | _ => "undefined".data
    bumpCount acc t) []
  let total := entries.foldl (fun acc e =>
    acc + (match e.lookup "content" with
      | some (.vstr s) => s.length
      | _ => 0)) 0
  { totalEntries := entries.length
    entriesByType := byType
    averageContentLength :=
      if 0 < entries.length then (2 * total + entries.length) / (2 * entries.length) else 0
    totalContentLength := total }

/-- The index document.  `FO` is the opaque `fuseOptions` payload forwarded
into `config`; `generated` is the `new Date().toISOString()` value, passed
in as a parameter since it is the only impure input. -/
structure SearchIndex (FO : Type) where
  version : List Char
  generator : List Char
  generated : List Char
  totalEntries : Nat
  configFuse : FO
  stats : IndexStats
  entries : List (List (String × JSVal))

/-- `createEmptyIndex(options)`. -/
def createEmptyIndex {FO : Type} (fuseOptions : FO) (now : List Char) : SearchIndex FO :=
  { version := "1.0.0".data
    generator := "metalsmith-search".data
    generated := now
    totalEntries := 0
    configFuse := fuseOptions
    stats := { totalEntries := 0, entriesByType := [], averageContentLength := 0,
               totalContentLength := 0 }
    entries := [] }

/-- `createSearchIndex(searchEntries, options)`: the empty (or non-array)
case delegates to `createEmptyIndex`; otherwise entries are optimized and
the index assembled around them. -/
def createSearchIndex {FO : Type} (searchEntries : List RawEntry) (fuseOptions : FO)
    (now : List Char) : SearchIndex FO :=
  if searchEntries.isEmpty then createEmptyIndex fuseOptions now
  else
    let optimized := optimizeEntriesForSearch searchEntries
    { version := "1.0.0".data
      generator := "metalsmith-search".data
      generated := now
      totalEntries := optimized.length
      configFuse := fuseOptions
      stats := generateIndexStats optimized
      entries := optimized }

/-! ### deepMerge (config utilities)

JS objects live in an explicit store so that the absence of mutation is a
provable statement rather than a modelling artifact: an object is an index
into the store, `deepMerge` may only append freshly allocated objects, and
the frame property "the input store is a prefix of the output store" says
exactly that every pre-existing object — in particular every nested object
of both arguments — is unchanged after the call. -/

/-- Primitive values for the merge model.  `deepMerge` treats everything
whose `constructor` is not `Object` as opaque when it occurs as a source
value (it is copied by reference, never descended into); arrays are
therefore carried as opaque tags, without their elements.  As a merge
*target* an array would be spread (`{...target}` yields its indexed
elements), a case the compatibility hypothesis of the merge theorem
excludes — see `compatF` — so the tag never needs its elements. -/
inductive MPrim where
  | mstr (s : List Char)
  | mnum (n : Int)
  | mbool (b : Bool)
  | mnull
  | marr (tag : Nat)
deriving DecidableEq

/-- A JS value: a primitive, or a reference to a plain object. -/
inductive MVal where
  | mprim (p : MPrim)
  | mref (id : Nat)
deriving DecidableEq

/-- The object store: object `i` is entry `i`, a field list in key-insertion
order; allocation appends. -/
abbrev MStore := List (List (String × MVal))

/-- The object spread `{...v}`: fields of a plain object; a primitive
spreads to nothing — except a non-empty string, which spreads to indexed
one-character fields, exactly as in JS.  An array would likewise spread to
its indexed element fields, which the model cannot produce since arrays
are opaque tags; `compatF` therefore rules arrays out wherever a spread
happens, exactly as it rules out non-empty strings, so this clause is
never consulted under the merge theorem's hypotheses. -/
def spreadFields (store : MStore) (v : MVal) : List (String × MVal) :=
  match v with
  | .mref id => (store.get? id).getD []
  | .mprim (.mstr s) =>
      s.enum.map (fun ic => (String.mk (natStr ic.1), MVal.mprim (.mstr [ic.2])))
  | .mprim _ => []

/-- `{...acc, [k]: v}`: replace in place when the key exists (JS keeps the
original insertion position), append otherwise. -/
def setField : List (String × MVal) → String → MVal → List (String × MVal)
  | [], k, v => [(k, v)]
  | (k0, v0) :: rest, k, v =>
      if k0 = k then (k0, v) :: rest else (k0, v0) :: setField rest k v

/-- `target[key]` (missing properties are `undefined`, modelled `mnull`
since the source only ever tests them for truthiness). -/
def lookupVal (fields : List (String × MVal)) (k : String) : MVal :=
  match fields.lookup k with
  | some v => v
  | none => .mprim .mnull

mutual
/-- `deepMerge(target, source)` in the store model, fuelled (the source
recurses unboundedly; any fuel at least the size of the source suffices and
the result is `none` only when fuel runs out).  The source argument is
always a plain object (`source[key]?.constructor === Object` guards every
recursive call); the target may be any value, spread into the initial
accumulator `{...target}`.  Each step of the key fold either recursively
merges (object source value) or overwrites (anything else); the merged
field list is allocated as a fresh object. -/
def deepMergeF : Nat → MStore → MVal → Nat → Option (MStore × Nat)
  | 0, _, _, _ => none
  | fuel + 1, store, tv, sid =>
      match store.get? sid with
      | none => none
      | some sf =>
          let tf := spreadFields store tv
          match mergeFoldF fuel store tf sf tf with
          | none => none
          | some (st2, acc) => some (st2 ++ [acc], st2.length)

/-- The `Object.keys(source).reduce` fold of `deepMerge`, over the remaining
source fields, threading the store. -/
def mergeFoldF : Nat → MStore → List (String × MVal) → List (String × MVal) →
    List (String × MVal) → Option (MStore × List (String × MVal))
  | 0, _, _, _, _ => none
  | _ + 1, store, _, [], acc => some (store, acc)
  | fuel + 1, store, tf, (k, sv) :: rest, acc =>
      match sv with
      | .mref svId =>
          match deepMergeF fuel store (lookupVal tf k) svId with
          | none => none
          | some (st2, rid) => mergeFoldF fuel st2 tf rest (setField acc k (.mref rid))
      | .mprim p => mergeFoldF fuel store tf rest (setField acc k (.mprim p))
end

/-- Pure readback of a store value as a tree (for stating what the merged
result contains). -/
inductive MTree where
  | leaf (p : MPrim)
  | node (fields : List (String × MTree))

/-- Read a value back from the store, fuelled; on a well-formed (stratified)
store any fuel above the reference suffices. -/
def readF : Nat → MStore → MVal → MTree
  | 0, _, _ => .leaf .mnull
  | _ + 1, _, .mprim p => .leaf p
  | fuel + 1, store, .mref id =>
      .node (((store.get? id).getD []).map (fun kv => (kv.1, readF fuel store kv.2)))

/-- Readback with canonical fuel (enough for any value of a stratified
store). -/
def readV (store : MStore) (v : MVal) : MTree :=
  readF (store.length + 1) store v

/-- `{...acc, [k]: v}` on trees. -/
def setFieldT : List (String × MTree) → String → MTree → List (String × MTree)
  | [], k, v => [(k, v)]
  | (k0, v0) :: rest, k, v =>
      if k0 = k then (k0, v) :: rest else (k0, v0) :: setFieldT rest k v

/-- The target value merged under a key, as the claim words it: a plain
object recurses, anything else contributes nothing. -/
def getFieldT (fields : List (String × MTree)) (k : String) : MTree :=
  match fields.lookup k with
  | some t => t
  | none => .leaf .mnull

mutual
/-- The claim's merge, on trees: a fresh result in which every key of the
source overrides the corresponding key of the target, recursively when the
source value is a plain object (so nested defaults survive partial
overrides).  Fuelled in lockstep with `deepMergeF` so the two can be
related step by step. -/
def specMergeF : Nat → MTree → MTree → MTree
  | 0, _, s => s
  | fuel + 1, t, s =>
      match s with
      | .leaf _ => s
      | .node sf =>
          let tf := match t with
            | .node f => f
            | .leaf _ => []
          .node (specFoldF fuel tf sf tf)

/-- The key fold of the claim's merge. -/
def specFoldF : Nat → List (String × MTree) → List (String × MTree) →
    List (String × MTree) → List (String × MTree)
  | 0, _, _, acc => acc
  | _ + 1, _, [], acc => acc
  | fuel + 1, tf, (k, sv) :: rest, acc =>
      let v := match sv with
        | .node _ => specMergeF fuel (getFieldT tf k) sv
        | .leaf _ => sv
      specFoldF fuel tf rest (setFieldT acc k v)
end

/-- A store is well formed when every object refers only to
earlier-allocated objects (stores built from JS object literals are of this
shape, and `deepMergeF` preserves it). -/
def WfStore (store : MStore) : Prop :=
  ∀ i obj, store.get? i = some obj →
    ∀ k id, (k, MVal.mref id) ∈ obj → id < i

/-- A value is valid for a store when any reference points into it. -/
def ValOk (store : MStore) : MVal → Prop
  | .mprim _ => True
  | .mref id => id < store.length

mutual
/-- Compatibility of a merge pair, fuelled in lockstep with `deepMergeF`:
wherever a plain object of the source is merged, the corresponding target
value is neither a non-empty string nor an array.  (For either, the JS
spread `{...target}` contributes indexed element fields to the recursive
merge — behaviour outside the claim, and for arrays outside the model,
which carries them as opaque tags; both cases are excluded by this
hypothesis.) -/
def compatF : Nat → MStore → MVal → Nat → Bool
  | 0, _, _, _ => false
  | fuel + 1, store, tv, sid =>
      (match tv with
        | .mprim (.mstr s) => s.isEmpty
        | .mprim (.marr _) => false
        | _ => true) &&
      match store.get? sid with
      | none => false
      | some sf => compatFoldF fuel store (spreadFields store tv) sf

/-- Field-wise compatibility over the remaining source fields. -/
def compatFoldF : Nat → MStore → List (String × MVal) → List (String × MVal) → Bool
  | 0, _, _, _ => false
  | _ + 1, _, _, [] => true
  | fuel + 1, store, tf, (k, sv) :: rest =>
      match sv with
      | .mref svId => compatF fuel store (lookupVal tf k) svId && compatFoldF fuel store tf rest
      | .mprim _ => compatFoldF fuel store tf rest
end

/-- Keyed readback of a field list. -/
def readFieldsV (store : MStore) (fs : List (String × MVal)) : List (String × MTree) :=
  fs.map (fun kv => (kv.1, readV store kv.2))

/-- All references of a field list point into the store. -/
def FieldsOk (store : MStore) (fs : List (String × MVal)) : Prop :=
  ∀ k id, (k, MVal.mref id) ∈ fs → id < store.length

/-- Executable check of store well-formedness (used to discharge `WfStore`
on concrete stores). -/
def wfStoreB (store : MStore) : Bool :=
  store.enum.all (fun p => p.2.all (fun kv =>
    match kv.2 with
    | .mref id => decide (id < p.1)
    | .mprim _ => true))

/-- A concrete store for exercising the merge: object 1 is the target
`{a: 1, nested: {x: 1, y: 2}}` (nested object 0), object 3 the source
`{nested: {y: 3}, b: 2}` (nested object 2). -/
def mergeExampleStore : MStore :=
  [[("x", .mprim (.mnum 1)), ("y", .mprim (.mnum 2))],
   [("a", .mprim (.mnum 1)), ("nested", .mref 0)],
   [("y", .mprim (.mnum 3))],
   [("nested", .mref 2), ("b", .mprim (.mnum 2))]]

/-! ## Shared lemmas -/

theorem stripSuffixL_append (a suf : List Char) : stripSuffixL (a ++ suf) suf = a := by
  unfold stripSuffixL
  rw [if_pos (List.isSuffixOf_iff_suffix.mpr (List.suffix_append a suf))]
  rw [List.length_append, Nat.add_sub_cancel, List.take_left]

theorem suffix_of_suffix_append {t a b : List Char} (h : t <:+ a ++ b)
    (hl : t.length ≤ b.length) : t <:+ b := by
  have h1 : t.reverse <+: (a ++ b).reverse := List.reverse_prefix.mpr h
  rw [List.reverse_append] at h1
  have h2 : t.reverse = (b.reverse ++ a.reverse).take t.reverse.length :=
    List.prefix_iff_eq_take.mp h1
  rw [List.take_append_of_le_length (by simpa using hl)] at h2
  exact List.reverse_prefix.mp (h2 ▸ List.take_prefix _ _)

theorem no_suffix_append_of_ne {t a b : List Char} (hl : t.length ≤ b.length)
    (hb : ¬ t <:+ b) : ¬ t <:+ a ++ b :=
  fun h => hb (suffix_of_suffix_append h hl)

/-! ## C9 -/

/-- C9: `createSearchIndex` applied to the empty entry list and any options
value returns (without any error path — the model is a total function) a
fully-populated index document with `totalEntries = 0`, `entries = []` and
`stats.totalEntries = 0`. -/
theorem C9_empty_index_valid {FO : Type} (fuseOptions : FO) (now : List Char) :
    (createSearchIndex [] fuseOptions now).totalEntries = 0 ∧
    (createSearchIndex [] fuseOptions now).entries = [] ∧
    (createSearchIndex [] fuseOptions now).stats.totalEntries = 0 ∧
    createSearchIndex [] fuseOptions now = createEmptyIndex fuseOptions now :=
  ⟨rfl, rfl, rfl, rfl⟩

/-! ## C1 -/

/-- C1: the code drops the `score` field.  `optimizeEntriesForSearch` ends
every optimized entry with `score: 0`, but `removeEmptyFields` — documented
as removing only empty/undefined fields — filters on JS truthiness, and `0`
is falsy, so the entries of the returned index carry no `score` field at
all.  Evaluated at the concrete failing input. -/
theorem C1_score_field_dropped :
    ((createSearchIndex [{ title := "Hello".data, content := "World".data }]
        (0 : Nat) "ts".data).entries.map (fun e => e.lookup "score")) = [none] ∧
    (optimizeEntry 0 { title := "Hello".data, content := "World".data }).lookup "score"
      = none ∧
    (optimizeEntry 0 { title := "Hello".data, content := "World".data }).map Prod.fst
      = ["id", "type", "url", "title", "content"] := by
  decide

/-! ## C4 -/

/-- C4 as stated is false: the component-variant URL computation maps the
root `index.html` to `/index`, not `/` (the `replace(/\/index$/, '')` there
requires a leading slash, so the bare `index` survives). -/
theorem C4_counterexample_component_root :
    urlComponent "index.html".data = "/index".data ∧
    "/index".data ≠ "/".data := by
  decide

/-- C4 amended: the HTML-first variant satisfies all stated mappings — the
root index collapses to `/`, any trailing `/index` collapses to the parent
path, and other paths keep their (extension-stripped) path with a leading
slash; the component variant satisfies the `foo/index.html` and
`foo/bar.html` mappings but maps the root `index.html` to `/index`. -/
theorem C4_url_normalization :
    urlHtmlFirst "index.html".data = "/".data ∧
    (∀ d : List Char, d ≠ [] →
      urlHtmlFirst (d ++ "/index.html".data) =
        (if d.head? = some '/' then d else '/' :: d)) ∧
    (∀ p : List Char, p ≠ "index".data → ¬ ("/index".data <:+ p) →
      urlHtmlFirst (p ++ ".html".data) =
        (if p.head? = some '/' then p else '/' :: p)) ∧
    (∀ d : List Char, d ≠ [] →
      urlComponent (d ++ "/index.html".data) =
        (if d.head? = some '/' then d else '/' :: d)) ∧
    (∀ p : List Char, p ≠ [] → ¬ ("/index".data <:+ p) →
      urlComponent (p ++ ".html".data) =
        (if p.head? = some '/' then p else '/' :: p)) ∧
    urlComponent "index.html".data = "/index".data := by
  refine ⟨by decide, ?_, ?_, ?_, ?_, by decide⟩
  · intro d hd
    have he : d.isEmpty = false := by
      cases d with
      | nil => exact absurd rfl hd
      | cons a l => rfl
    have h1 : d ++ "/index.html".data = (d ++ "/index".data) ++ ".html".data := by
      rw [List.append_assoc]; rfl
    have hsuf : "/index".data.isSuffixOf (d ++ "/index".data) = true :=
      List.isSuffixOf_iff_suffix.mpr (List.suffix_append _ _)
    have hlen : (d ++ "/index".data).length - 6 = d.length := by
      have h6 : ("/index".data).length = 6 := rfl
      rw [List.length_append, h6]
      omega
    have htake : (d ++ "/index".data).take ((d ++ "/index".data).length - 6) = d := by
      rw [hlen]
      exact List.take_left d _
    simp only [urlHtmlFirst, h1, stripSuffixL_append, hsuf, Bool.or_true, if_true, htake, he]
    simp [he]
  · intro p hp hs
    have hd : decide (p = "index".data) = false := decide_eq_false hp
    have hsuf : "/index".data.isSuffixOf p = false :=
      Bool.eq_false_iff.mpr (fun h => hs (List.isSuffixOf_iff_suffix.mp h))
    simp only [urlHtmlFirst, stripSuffixL_append, hd, hsuf, Bool.or_self, Bool.false_or]
    simp
  · intro d hd
    have he : d.isEmpty = false := by
      cases d with
      | nil => exact absurd rfl hd
      | cons a l => rfl
    have h1 : d ++ "/index.html".data = (d ++ "/index".data) ++ ".html".data := by
      rw [List.append_assoc]; rfl
    have hmd : ¬ (".md".data <:+ d ++ "/index.html".data) :=
      no_suffix_append_of_ne (by decide) (by decide)
    have hb1 : stripSuffixL (d ++ "/index.html".data) ".html".data = d ++ "/index".data := by
      rw [h1, stripSuffixL_append]
    have hb2 : stripSuffixL (d ++ "/index".data) "/index".data = d := stripSuffixL_append _ _
    simp [urlComponent, hmd, hb1, hb2, he]
  · intro p hp hs
    have he : p.isEmpty = false := by
      cases p with
      | nil => exact absurd rfl hp
      | cons a l => rfl
    have hmd : ¬ (".md".data <:+ p ++ ".html".data) :=
      no_suffix_append_of_ne (by decide) (by decide)
    have hb1 : stripSuffixL (p ++ ".html".data) ".html".data = p := stripSuffixL_append _ _
    have hb2 : stripSuffixL p "/index".data = p := by
      unfold stripSuffixL
      rw [if_neg (fun hh => hs (List.isSuffixOf_iff_suffix.mp hh))]
    simp [urlComponent, hmd, hb1, hb2, he]


/-! ## C7 -/

/-- C7 as stated is false: a directly-owned string-valued property whose
value is the empty string is not returned immediately — the
`obj[targetField] &&` truthiness test skips it, and the search recurses (or
reports not-found) instead. -/
theorem C7_counterexample_empty_string :
    findNestedFieldF 5
        (.vobj [("title", .vstr ""), ("content", .vobj [("title", .vstr "Deep")])])
        "title" = some "Deep" ∧
    findNestedFieldF 5 (.vobj [("title", .vstr "")]) "title" = none := by
  decide

/-- C7 amended: the resolver is a depth-first pre-order search for a
NON-EMPTY string-valued property: a truthy directly-owned string is
returned immediately (for any remaining call-stack fuel); null/non-object
inputs report not-found; array values are not descended into; the first
match in traversal order wins; and the claim's concrete deep example
resolves to `Deep Title`. -/
theorem C7_nested_field_resolution :
    (∀ (fuel : Nat) (fields : List (String × JVal)) (t : String) (s : String),
      lookupStr fields t = some s → s ≠ "" →
      findNestedFieldF (fuel + 1) (.vobj fields) t = some s) ∧
    (∀ (fuel : Nat) (t : String), findNestedFieldF fuel .vatom t = none) ∧
    (∀ (fuel : Nat) (t s : String), findNestedFieldF fuel (.vstr s) t = none) ∧
    findNestedFieldF 10
      (.vobj [("sectionType", .vstr "x"),
        ("content", .vobj [("main", .vobj [("text", .vobj [("title", .vstr "Deep Title")])])])])
      "title" = some "Deep Title" ∧
    findNestedFieldF 10 (.vobj [("a", .varr [.vobj [("title", .vstr "x")]])]) "title" = none ∧
    findNestedFieldF 10
      (.vobj [("b", .vobj [("title", .vstr "First")]), ("c", .vobj [("title", .vstr "Second")])])
      "title" = some "First" := by
  refine ⟨?_, ?_, ?_, by decide, by decide, by decide⟩
  · intro fuel fields t s h hs
    simp [findNestedFieldF, h, hs]
  · intro fuel t
    cases fuel <;> rfl
  · intro fuel t s
    cases fuel <;> rfl

/-- Witness for C7's amended theorem: the direct-hit rule applied at a
concrete object. -/
theorem C7_nested_field_resolution_witness :
    findNestedFieldF 1 (.vobj [("title", JVal.vstr "T")]) "title" = some "T" :=
  C7_nested_field_resolution.1 0 [("title", JVal.vstr "T")] "title" "T" rfl (by decide)

/-! ## C5 -/

/-- C5 as stated is false: with `separator: ' '` and `prefix: ' '` the
pipeline returns the two-space string for an input that cleans to nothing —
a non-empty but whitespace-only result; and with a non-empty prefix the
empty-cleaning fallback is `x-`, not `section`. -/
theorem C5_counterexample_whitespace_only :
    generateAnchorId (.jsStr "!!!".data) ⟨50, " ".data, [], true, ' '⟩ = "  ".data ∧
    "  ".data.all isWs = true ∧ "  ".data ≠ [] ∧
    generateAnchorId (.jsStr "!!!".data) ⟨50, "x".data, [], true, '-'⟩ = "x-".data := by
  decide

theorem ensureValidAnchor_ne_nil (a : List Char) : ensureValidAnchor a ≠ [] := by
  unfold ensureValidAnchor
  split
  · decide
  · next h => exact fun hn => h (by simp [hn])

theorem collapseRunsGo_mem {p : Char → Bool} {sep : Char} :
    ∀ (l : List Char) (b : Bool) (c : Char), c ∈ collapseRunsGo p sep l b →
      c = sep ∨ (c ∈ l ∧ p c = false) := by
  intro l
  induction l with
  | nil => intro b c hc; simp [collapseRunsGo] at hc
  | cons a rest ih =>
      intro b c hc
      unfold collapseRunsGo at hc
      by_cases hp : p a
      · cases b with
        | true =>
            rw [if_pos hp, if_pos rfl] at hc
            rcases ih true c hc with h | ⟨h1, h2⟩
            · exact Or.inl h
            · exact Or.inr ⟨List.mem_cons_of_mem a h1, h2⟩
        | false =>
            rw [if_pos hp, if_neg (by decide)] at hc
            rcases List.mem_cons.mp hc with h | h
            · exact Or.inl h
            · rcases ih true c h with h2 | ⟨h3, h4⟩
              · exact Or.inl h2
              · exact Or.inr ⟨List.mem_cons_of_mem a h3, h4⟩
      · rw [if_neg hp] at hc
        rcases List.mem_cons.mp hc with h | h
        · exact Or.inr ⟨h ▸ List.mem_cons_self a rest, h ▸ Bool.eq_false_iff.mpr hp⟩
        · rcases ih false c h with h2 | ⟨h3, h4⟩
          · exact Or.inl h2
          · exact Or.inr ⟨List.mem_cons_of_mem a h3, h4⟩

theorem cleanTextForAnchor_default_noWs (s : List Char) :
    ∀ c ∈ cleanTextForAnchor s '-', isWs c = false := by
  intro c hc
  unfold cleanTextForAnchor at hc
  rw [List.mem_reverse] at hc
  have h5 := List.dropWhile_subset _ (List.mem_reverse.mp (List.dropWhile_subset _ hc))
  rcases collapseRunsGo_mem _ _ _ h5 with h | ⟨h4, _⟩
  · subst h; decide
  · rcases collapseRunsGo_mem _ _ _ h4 with h | ⟨_, hnp⟩
    · subst h; decide
    · exact (Bool.or_eq_false_iff.mp hnp).1

theorem mem_section_noWs : ∀ c ∈ "section".data, isWs c = false := by decide

theorem truncateText_subset (t : List Char) (n : Nat) (sep : Char) :
    ∀ c ∈ truncateText t n sep, c ∈ t := by
  intro c hc
  unfold truncateText at hc
  split at hc
  · exact hc
  · rw [List.mem_reverse] at hc
    exact List.take_subset _ _ (List.mem_reverse.mp (List.dropWhile_subset _ hc))

theorem generateAnchorIdDefault_noWs (s : List Char) :
    ∀ c ∈ generateAnchorIdDefault s, isWs c = false := by
  intro c hc
  unfold generateAnchorIdDefault generateAnchorId at hc
  by_cases he : isValidTextInput (.jsStr s)
  · rw [if_neg (by simp [he])] at hc
    simp only [addAnchorPre, addAnchorSuf, List.isEmpty_nil, if_true] at hc
    unfold ensureValidAnchor at hc
    split at hc
    · exact mem_section_noWs c hc
    · exact cleanTextForAnchor_default_noWs s c
        (truncateText_subset _ _ _ c (by simpa [processNumbers] using hc))
  · rw [if_pos (by simp [he])] at hc
    exact mem_section_noWs c hc

/-- C5 amended: `generateAnchorId` always returns a non-empty string, and
invalid inputs (null, undefined, the empty string, numbers, booleans)
return the literal `section` for every options value; with the DEFAULT
options the result additionally contains no whitespace, and inputs that
clean to nothing fall back to `section`.  (With a whitespace separator and
prefix the result can be whitespace-only, and with a non-empty prefix the
empty-cleaning fallback carries the prefix instead of `section` — see the
counterexample.) -/
theorem C5_anchor_id_never_empty :
    (∀ (text : JSInput) (o : AnchorOptions), generateAnchorId text o ≠ []) ∧
    (∀ o : AnchorOptions,
      generateAnchorId .jsNull o = "section".data ∧
      generateAnchorId .jsUndefined o = "section".data ∧
      generateAnchorId (.jsStr []) o = "section".data ∧
      (∀ n : Int, generateAnchorId (.jsNum n) o = "section".data) ∧
      (∀ b : Bool, generateAnchorId (.jsBool b) o = "section".data)) ∧
    (∀ s : List Char, ∀ c ∈ generateAnchorIdDefault s, isWs c = false) ∧
    (∀ s : List Char, cleanTextForAnchor s '-' = [] →
      generateAnchorIdDefault s = "section".data) := by
  refine ⟨?_, ?_, generateAnchorIdDefault_noWs, ?_⟩
  · intro text o
    cases text with
    | jsStr s =>
        by_cases he : s.isEmpty
        · rw [show generateAnchorId (.jsStr s) o = "section".data by
            unfold generateAnchorId
            rw [if_pos (by simp [isValidTextInput, he])]]
          decide
        · unfold generateAnchorId
          rw [if_neg (by simp [isValidTextInput, he])]
          exact ensureValidAnchor_ne_nil _
    | jsNull => rw [show generateAnchorId .jsNull o = "section".data from rfl]; decide
    | jsUndefined => rw [show generateAnchorId .jsUndefined o = "section".data from rfl]; decide
    | jsNum n => rw [show generateAnchorId (.jsNum n) o = "section".data from rfl]; decide
    | jsBool b => rw [show generateAnchorId (.jsBool b) o = "section".data from rfl]; decide
  · intro o
    refine ⟨rfl, rfl, rfl, fun n => rfl, fun b => rfl⟩
  · intro s h
    unfold generateAnchorIdDefault generateAnchorId
    by_cases he : isValidTextInput (.jsStr s)
    · rw [if_neg (by simp [he])]
      simp [h, processNumbers, truncateText, addAnchorPre, addAnchorSuf, ensureValidAnchor]
    · rw [if_pos (by simp [he])]

/-- Witness for C5's amended theorem: the result at a concrete input that
cleans to nothing is non-empty, and equals `section`. -/
theorem C5_anchor_id_never_empty_witness :
    generateAnchorIdDefault "!!!".data = "section".data ∧
    generateAnchorId (.jsStr "!!!".data) ⟨50, [], [], true, '-'⟩ ≠ [] :=
  ⟨C5_anchor_id_never_empty.2.2.2 "!!!".data (by decide),
   C5_anchor_id_never_empty.1 (.jsStr "!!!".data) ⟨50, [], [], true, '-'⟩⟩

/-! ## C2 and C3: decimal rendering and id disambiguation lemmas -/

theorem char48_toNat : ∀ d : Nat, d < 10 → (Char.ofNat (48 + d)).toNat = 48 + d := by
  intro d hd
  interval_cases d <;> rfl

theorem valOfRev_natDigitsRev : ∀ fuel n, n ≤ fuel → valOfRev (natDigitsRev fuel n) = n := by
  intro fuel
  induction fuel with
  | zero =>
      intro n hn
      interval_cases n
      rfl
  | succ fuel ih =>
      intro n hn
      unfold natDigitsRev
      by_cases h0 : n = 0
      · simp [h0, valOfRev]
      · rw [if_neg h0]
        have hdiv : n / 10 < n := Nat.div_lt_self (Nat.pos_of_ne_zero h0) (by decide)
        simp only [valOfRev]
        rw [char48_toNat (n % 10) (Nat.mod_lt _ (by decide)), ih (n / 10) (by omega)]
        omega

theorem valOfRev_reverse_natStr (n : Nat) : valOfRev (natStr n).reverse = n := by
  unfold natStr
  by_cases h0 : n = 0
  · simp [h0, valOfRev]
  · rw [if_neg h0, List.reverse_reverse]
    exact valOfRev_natDigitsRev n n (Nat.le_refl n)

theorem natStr_inj {m n : Nat} (h : natStr m = natStr n) : m = n := by
  have h2 := congrArg (fun l => valOfRev (List.reverse l)) h
  simpa [valOfRev_reverse_natStr] using h2

theorem dashNum_inj (base : List Char) {i j : Nat}
    (h : base ++ '-' :: natStr i = base ++ '-' :: natStr j) : i = j := by
  have h2 := List.append_cancel_left h
  injection h2 with _ h3
  exact natStr_inj h3

theorem base_ne_dashNum (base : List Char) (i : Nat) :
    base ≠ base ++ '-' :: natStr i := by
  intro h
  have h2 := congrArg List.length h
  simp [List.length_append] at h2

theorem headingIdAt_inj (s : List Char) : Function.Injective (headingIdAt s) := by
  intro i j h
  unfold headingIdAt at h
  by_cases hi : i = 0 <;> by_cases hj : j = 0
  · omega
  · rw [if_pos hi, if_neg hj] at h
    exact absurd h (base_ne_dashNum s j)
  · rw [if_neg hi, if_pos hj] at h
    exact absurd h.symm (base_ne_dashNum s i)
  · rw [if_neg hi, if_neg hj] at h
    exact dashNum_inj s h

theorem exists_free_candidate (used : List (List Char)) (base : List Char) :
    ∃ k, 1 ≤ k ∧ k < 1 + (used.length + 1) ∧ base ++ '-' :: natStr k ∉ used := by
  by_contra hall
  push_neg at hall
  have hinj : Function.Injective (fun k : Nat => base ++ '-' :: natStr (k + 1)) := by
    intro i j h
    have := dashNum_inj base h
    omega
  set L := (List.range (used.length + 1)).map (fun k => base ++ '-' :: natStr (k + 1)) with hL
  have hnd : L.Nodup := List.Nodup.map hinj (List.nodup_range _)
  have hsub : L ⊆ used := by
    intro x hx
    rw [hL, List.mem_map] at hx
    obtain ⟨k, hk, rfl⟩ := hx
    rw [List.mem_range] at hk
    exact hall (k + 1) (by omega) (by omega)
  have h1 : L.toFinset.card = L.length := List.toFinset_card_of_nodup hnd
  have h2 : L.toFinset ⊆ used.toFinset :=
    fun x hx => List.mem_toFinset.mpr (hsub (List.mem_toFinset.mp hx))
  have h3 := Finset.card_le_card h2
  have h4 := @List.toFinset_card_le (List Char) _ used
  have h5 : L.length = used.length + 1 := by simp [hL]
  omega

theorem uniquifyGo_not_mem (used : List (List Char)) (base : List Char) :
    ∀ fuel c, (∃ k, c ≤ k ∧ k < c + fuel ∧ base ++ '-' :: natStr k ∉ used) →
      uniquifyGo used base c fuel ∉ used := by
  intro fuel
  induction fuel with
  | zero =>
      intro c ⟨k, hk1, hk2, _⟩
      omega
  | succ fuel ih =>
      intro c ⟨k, hk1, hk2, hk3⟩
      unfold uniquifyGo
      by_cases hc : base ++ '-' :: natStr c ∈ used
      · rw [if_pos hc]
        apply ih (c + 1)
        have hne : c ≠ k := fun he => hk3 (he ▸ hc)
        exact ⟨k, by omega, by omega, hk3⟩
      · rw [if_neg hc]
        exact hc

theorem uniquifyGo_eq (used : List (List Char)) (base : List Char) :
    ∀ fuel c k, c ≤ k → k < c + fuel →
      (∀ j, c ≤ j → j < k → base ++ '-' :: natStr j ∈ used) →
      base ++ '-' :: natStr k ∉ used →
      uniquifyGo used base c fuel = base ++ '-' :: natStr k := by
  intro fuel
  induction fuel with
  | zero =>
      intro c k h1 h2
      omega
  | succ fuel ih =>
      intro c k h1 h2 hall hk
      unfold uniquifyGo
      by_cases hck : c = k
      · subst hck
        rw [if_neg hk]
      · have hlt : c < k := by omega
        rw [if_pos (hall c (Nat.le_refl c) hlt)]
        exact ih (c + 1) k (by omega) (by omega) (fun j hj1 hj2 => hall j (by omega) hj2) hk

theorem uniquify_not_mem (used : List (List Char)) (base : List Char) :
    uniquify used base ∉ used := by
  unfold uniquify
  split
  · apply uniquifyGo_not_mem
    obtain ⟨k, h1, h2, h3⟩ := exists_free_candidate used base
    exact ⟨k, h1, h2, h3⟩
  · next h => exact h

theorem uniquify_usedTo (s : List Char) (i : Nat) :
    uniquify (((List.range i).map (headingIdAt s)).reverse) s = headingIdAt s i := by
  set used := ((List.range i).map (headingIdAt s)).reverse with hu
  have hmem : ∀ x, x ∈ used ↔ ∃ j, j < i ∧ x = headingIdAt s j := by
    intro x
    rw [hu, List.mem_reverse, List.mem_map]
    constructor
    · rintro ⟨j, hj, rfl⟩
      exact ⟨j, List.mem_range.mp hj, rfl⟩
    · rintro ⟨j, hj, rfl⟩
      exact ⟨j, List.mem_range.mpr hj, rfl⟩
  by_cases hi : i = 0
  · subst hi
    unfold uniquify
    rw [if_neg (by simp [hu])]
    rfl
  · have hs_mem : s ∈ used := (hmem s).mpr ⟨0, by omega, rfl⟩
    unfold uniquify
    rw [if_pos hs_mem]
    have hlen : used.length = i := by simp [hu]
    rw [hlen]
    have hid : headingIdAt s i = s ++ '-' :: natStr i := by
      unfold headingIdAt
      rw [if_neg hi]
    rw [hid]
    apply uniquifyGo_eq
    · omega
    · omega
    · intro j hj1 hj2
      refine (hmem _).mpr ⟨j, by omega, ?_⟩
      unfold headingIdAt
      rw [if_neg (by omega)]
    · intro hcon
      obtain ⟨j, hji, hj⟩ := (hmem _).mp hcon
      unfold headingIdAt at hj
      by_cases hj0 : j = 0
      · rw [if_pos hj0] at hj
        exact base_ne_dashNum s i hj.symm
      · rw [if_neg hj0] at hj
        have := dashNum_inj s hj
        omega

theorem extract_replicate (lvl t : List Char) (htitle : (trimChars t).isEmpty = false) :
    ∀ (m i : Nat),
      extractHeadingsGo (List.replicate m ⟨lvl, t, none⟩)
          (((List.range i).map (headingIdAt (generateAnchorIdDefault (trimChars t)))).reverse)
        = (List.range' i m).map
            (fun j => ⟨lvl, headingIdAt (generateAnchorIdDefault (trimChars t)) j, trimChars t⟩) := by
  intro m
  induction m with
  | zero =>
      intro i
      simp [extractHeadingsGo]
  | succ m ih =>
      intro i
      rw [List.replicate_succ]
      simp only [extractHeadingsGo]
      rw [if_neg (by simp [htitle])]
      rw [uniquify_usedTo]
      have hused : headingIdAt (generateAnchorIdDefault (trimChars t)) i ::
          ((List.range i).map (headingIdAt (generateAnchorIdDefault (trimChars t)))).reverse
          = ((List.range (i + 1)).map (headingIdAt (generateAnchorIdDefault (trimChars t)))).reverse := by
        rw [List.range_succ, List.map_append, List.reverse_append]
        rfl
      rw [hused, ih (i + 1), List.range'_succ]
      rfl

/-- C2 as stated is false: explicit author-supplied ids are kept verbatim
WITHOUT any uniqueness check, so two headings with the same explicit id —
or an explicit id equal to an earlier generated one — yield duplicates. -/
theorem C2_counterexample_duplicate_explicit_ids :
    (extractAndProcessHeadings
        [⟨"h2".data, "X".data, some "a".data⟩,
         ⟨"h2".data, "Y".data, some "a".data⟩]).map HeadingOut.id
      = ["a".data, "a".data] ∧
    (extractAndProcessHeadings
        [⟨"h2".data, "a".data, none⟩,
         ⟨"h2".data, "B".data, some "a".data⟩]).map HeadingOut.id
      = ["a".data, "a".data] ∧
    ¬ (["a".data, "a".data] : List (List Char)).Nodup := by
  decide

/-- C2 amended: when no heading carries a (truthy) explicit id, the emitted
ids are pairwise distinct — every generated id is disambiguated against the
whole used set; an explicit non-empty id is kept verbatim and recorded as
used, but nothing prevents it from duplicating an id already in the list. -/
theorem C2_generated_ids_nodup :
    (∀ doc : List HeadingIn, (∀ h ∈ doc, h.attrId = none) →
      ((extractAndProcessHeadings doc).map HeadingOut.id).Nodup) ∧
    (∀ (lvl txt i : List Char) (rest : List HeadingIn) (used : List (List Char)),
      (trimChars txt).isEmpty = false → i.isEmpty = false →
      extractHeadingsGo (⟨lvl, txt, some i⟩ :: rest) used
        = ⟨lvl, i, trimChars txt⟩ :: extractHeadingsGo rest (i :: used)) := by
  constructor
  · have haux : ∀ (doc : List HeadingIn) (used : List (List Char)),
        (∀ h ∈ doc, h.attrId = none) →
        (((extractHeadingsGo doc used).map HeadingOut.id).Nodup ∧
          ∀ x ∈ (extractHeadingsGo doc used).map HeadingOut.id, x ∉ used) := by
      intro doc
      induction doc with
      | nil =>
          intro used _
          simp [extractHeadingsGo]
      | cons h rest ih =>
          intro used hall
          obtain ⟨lvl0, txt0, aid⟩ := h
          have hh : aid = none := hall ⟨lvl0, txt0, aid⟩ (List.mem_cons_self _ _)
          subst hh
          have hrest : ∀ x ∈ rest, x.attrId = none :=
            fun x hm => hall x (List.mem_cons_of_mem _ hm)
          by_cases ht : (trimChars txt0).isEmpty
          · simp only [extractHeadingsGo]
            rw [if_pos ht]
            exact ih used hrest
          · simp only [extractHeadingsGo]
            rw [if_neg ht]
            obtain ⟨ih1, ih2⟩ :=
              ih (uniquify used (generateAnchorIdDefault (trimChars txt0)) :: used) hrest
            constructor
            · rw [List.map_cons]
              refine List.nodup_cons.mpr ⟨?_, ih1⟩
              intro hmem
              exact (ih2 _ hmem) (List.mem_cons_self _ _)
            · intro x hx
              rw [List.map_cons] at hx
              rcases List.mem_cons.mp hx with h1 | h1
              · subst h1
                exact uniquify_not_mem used _
              · intro hxu
                exact (ih2 x h1) (List.mem_cons_of_mem _ hxu)
    intro doc hdoc
    exact (haux doc [] hdoc).1
  · intro lvl txt i rest used htxt hi
    simp only [extractHeadingsGo]
    rw [if_neg (by simp [htxt]), if_neg (by simp [hi])]

/-- Witness for C2's amended theorem at a concrete two-heading document. -/
theorem C2_generated_ids_nodup_witness :
    ((extractAndProcessHeadings
        [⟨"h2".data, "Setup".data, none⟩,
         ⟨"h2".data, "Setup".data, none⟩]).map HeadingOut.id).Nodup :=
  C2_generated_ids_nodup.1 _ (by decide)

/-- C3: a document of `n` headings with the same non-empty title and no
explicit ids receives the ids `slug`, `slug-1`, …, `slug-(n-1)` in order of
appearance (each disambiguated to the first free integer), and these ids
are pairwise distinct. -/
theorem C3_duplicate_title_ids (lvl t : List Char) (n : Nat)
    (htitle : (trimChars t).isEmpty = false) :
    (extractAndProcessHeadings (List.replicate n ⟨lvl, t, none⟩)).map HeadingOut.id
      = (List.range n).map (headingIdAt (generateAnchorIdDefault (trimChars t))) ∧
    ((extractAndProcessHeadings (List.replicate n ⟨lvl, t, none⟩)).map HeadingOut.id).Nodup := by
  have h := extract_replicate lvl t htitle n 0
  rw [show (((List.range 0).map
      (headingIdAt (generateAnchorIdDefault (trimChars t)))).reverse : List (List Char))
      = [] from rfl] at h
  unfold extractAndProcessHeadings
  rw [h, ← List.range_eq_range', List.map_map]
  constructor
  · rfl
  · exact List.Nodup.map (headingIdAt_inj _) (List.nodup_range _)

/-- Witness for C3 at three identical `Setup` headings. -/
theorem C3_duplicate_title_ids_witness :
    (extractAndProcessHeadings (List.replicate 3 ⟨"h2".data, "Setup".data, none⟩)).map
        HeadingOut.id
      = ["setup".data, "setup-1".data, "setup-2".data] := by
  have h := C3_duplicate_title_ids "h2".data "Setup".data 3 (by decide)
  rw [h.1]
  decide

/-- Witness for C4's amended theorem at the three spec paths. -/
theorem C4_url_normalization_witness :
    urlHtmlFirst "foo/index.html".data = "/foo".data ∧
    urlHtmlFirst "foo/bar.html".data = "/foo/bar".data ∧
    urlComponent "foo/index.html".data = "/foo".data ∧
    urlComponent "foo/bar.html".data = "/foo/bar".data := by
  have h := C4_url_normalization
  refine ⟨?_, ?_, ?_, ?_⟩
  · have h2 := h.2.1 "foo".data (by decide)
    rw [show "foo".data ++ "/index.html".data = "foo/index.html".data from rfl] at h2
    rw [h2]
    decide
  · have h2 := h.2.2.1 "foo/bar".data (by decide) (by decide)
    rw [show "foo/bar".data ++ ".html".data = "foo/bar.html".data from rfl] at h2
    rw [h2]
    decide
  · have h2 := h.2.2.2.1 "foo".data (by decide)
    rw [show "foo".data ++ "/index.html".data = "foo/index.html".data from rfl] at h2
    rw [h2]
    decide
  · have h2 := h.2.2.2.2.1 "foo/bar".data (by decide) (by decide)
    rw [show "foo/bar".data ++ ".html".data = "foo/bar.html".data from rfl] at h2
    rw [h2]
    decide

/-! ## C8 -/

theorem joinSpace_singleton (s : List Char) : joinSpace [s] = s := by
  simp [joinSpace, joinStep]

theorem joinSpace_concat (g : List (List Char)) (s : List Char) :
    joinSpace (g ++ [s]) = joinStep (joinSpace g) s := by
  simp [joinSpace, List.foldl_append]

theorem trimChars_length_le (l : List Char) : (trimChars l).length ≤ l.length := by
  unfold trimChars
  calc ((l.dropWhile isWs).reverse.dropWhile isWs).reverse.length
      = ((l.dropWhile isWs).reverse.dropWhile isWs).length := List.length_reverse _
    _ ≤ (l.dropWhile isWs).reverse.length := (List.dropWhile_sublist _).length_le
    _ = (l.dropWhile isWs).length := List.length_reverse _
    _ ≤ l.length := (List.dropWhile_sublist _).length_le

theorem trimChars_append_ws (x : List Char) (c : Char) (hc : isWs c = true) :
    trimChars (x ++ [c]) = trimChars x := by
  unfold trimChars
  rw [List.dropWhile_append]
  by_cases he : (x.dropWhile isWs).isEmpty
  · rw [if_pos he]
    have h1 : ([c].dropWhile isWs) = [] := by
      rw [List.dropWhile_cons_of_pos hc]
      rfl
    have h2 : x.dropWhile isWs = [] := List.isEmpty_iff.mp he
    rw [h1, h2]
  · rw [if_neg he]
    rw [List.reverse_append]
    simp only [List.reverse_cons, List.reverse_nil, List.nil_append, List.singleton_append]
    rw [List.dropWhile_cons_of_pos hc]

theorem chunkGo_mem_spec (maxLength : Nat) :
    ∀ (ss : List (List Char)) (g : List (List Char)),
      (g ≠ [] → (trimChars (joinSpace g)).length ≤ maxLength + (g.getLastD []).length) →
      ∀ c ∈ chunkGo maxLength ss (joinSpace g),
        ∃ g', g' ≠ [] ∧ g' <:+: (g ++ ss) ∧ c = trimChars (joinSpace g') ∧
          c.length ≤ maxLength + (g'.getLastD []).length := by
  intro ss
  induction ss with
  | nil =>
      intro g hinv c hc
      unfold chunkGo at hc
      split at hc
      · simp at hc
      · next hne =>
          have hcv : c = trimChars (joinSpace g) := List.mem_singleton.mp hc
          have hg : g ≠ [] := by
            intro h0
            subst h0
            exact hne rfl
          subst hcv
          exact ⟨g, hg, by simp only [List.append_nil]; exact List.infix_refl g, rfl, hinv hg⟩
  | cons s ss ih =>
      intro g hinv c hc
      unfold chunkGo at hc
      split at hc
      · next hcond =>
          rcases List.mem_cons.mp hc with hcv | hmem
          · have hg : g ≠ [] := by
              intro h0
              subst h0
              simp [joinSpace] at hcond
            subst hcv
            exact ⟨g, hg, (List.prefix_append g (s :: ss)).isInfix, rfl, hinv hg⟩
          · rw [show s = joinSpace [s] from (joinSpace_singleton s).symm] at hmem
            obtain ⟨g', hg1, hg2, hg3, hg4⟩ := ih [s]
              (fun _ => by
                simpa [joinSpace_singleton] using
                  (trimChars_length_le s).trans (Nat.le_add_left _ _)) c hmem
            refine ⟨g', hg1, ?_, hg3, hg4⟩
            exact hg2.trans ((List.suffix_append g ([s] ++ ss)).isInfix)
      · next hcond =>
          rw [show joinStep (joinSpace g) s = joinSpace (g ++ [s]) from
            (joinSpace_concat g s).symm] at hc
          have hinv2 : g ++ [s] ≠ [] →
              (trimChars (joinSpace (g ++ [s]))).length ≤
                maxLength + ((g ++ [s]).getLastD []).length := by
            intro _
            rw [List.getLastD_concat, joinSpace_concat]
            by_cases h0 : (joinSpace g).length = 0
            · have hgnil : joinSpace g = [] := List.length_eq_zero.mp h0
              rw [hgnil]
              unfold joinStep
              simp only [List.isEmpty_nil, if_true]
              exact (trimChars_length_le s).trans (Nat.le_add_left _ _)
            · have hle : (joinSpace g).length + s.length ≤ maxLength := by
                rcases Decidable.not_and_iff_or_not.mp hcond with h | h
                · omega
                · omega
              have hjo : joinStep (joinSpace g) s = joinSpace g ++ ' ' :: s := by
                unfold joinStep
                rw [if_neg (by
                  intro he
                  exact h0 (by simp [List.isEmpty_iff.mp he]))]
              rw [hjo]
              cases s with
              | nil =>
                  rw [show (joinSpace g ++ ' ' :: ([] : List Char))
                      = joinSpace g ++ [' '] from rfl]
                  rw [trimChars_append_ws _ _ (by decide)]
                  calc (trimChars (joinSpace g)).length
                      ≤ (joinSpace g).length := trimChars_length_le _
                    _ ≤ maxLength + ([] : List Char).length := by simp; omega
              | cons a s0 =>
                  calc (trimChars (joinSpace g ++ ' ' :: a :: s0)).length
                      ≤ (joinSpace g ++ ' ' :: a :: s0).length := trimChars_length_le _
                    _ = (joinSpace g).length + (a :: s0).length + 1 := by
                        simp [List.length_append]
                        omega
                    _ ≤ maxLength + (a :: s0).length := by
                        have := hle
                        simp [List.length_cons] at this ⊢
                        omega
          obtain ⟨g', hg1, hg2, hg3, hg4⟩ := ih (g ++ [s]) hinv2 c hc
          refine ⟨g', hg1, ?_, hg3, hg4⟩
          simpa [List.append_assoc] using hg2

/-- C8: every chunk `splitLongContent` produces is the trimmed space-join
of a non-empty run of consecutive whole sentences of the input (no chunk
boundary falls inside a sentence), and its length is at most the limit plus
the length of the one trailing sentence that was already under way. -/
theorem C8_sentence_chunking (content : List Char) (maxLength : Nat) :
    ∀ c ∈ splitLongContent content maxLength,
      ∃ g, g ≠ [] ∧ g <:+: splitSentences content ∧
        c = trimChars (joinSpace g) ∧
        c.length ≤ maxLength + (g.getLastD []).length := by
  intro c hc
  unfold splitLongContent at hc
  rw [show ([] : List Char) = joinSpace [] from rfl] at hc
  obtain ⟨g', h1, h2, h3, h4⟩ :=
    chunkGo_mem_spec maxLength (splitSentences content) []
      (fun h => absurd rfl h) c hc
  exact ⟨g', h1, by simpa using h2, h3, h4⟩

/-- Witness for C8 at a concrete text and limit. -/
theorem C8_sentence_chunking_witness :
    ∃ g, g ≠ [] ∧ g <:+: splitSentences "Hi. Bye. Now go.".data ∧
      "Hi. Bye.".data = trimChars (joinSpace g) ∧
      ("Hi. Bye.".data).length ≤ 8 + (g.getLastD []).length :=
  C8_sentence_chunking "Hi. Bye. Now go.".data 8 "Hi. Bye.".data (by decide)

/-! ## C6 -/

/-- C6 as stated is false for the regex variant: a script element whose
closing tag carries a space (`</script >`, valid HTML) escapes the block
regex, `stripTags` then removes only the tag markup, and the script body
survives in the output.  A well-formed closing tag is removed. -/
theorem C6_counterexample_script_leak :
    stripHtmlRegex "<p>Hi</p><script>evil</script >".data {} = "Hi evil".data ∧
    "evil".data <:+: "Hi evil".data ∧
    stripHtmlRegex "<p>Hi</p><script>evil</script>".data {} = "Hi".data := by
  decide

theorem toLower_ne_lt {c : Char} (hc : c ≠ '<') : (c.toLower == '<') = false := by
  simp only [Char.toLower]
  split
  · next h =>
      obtain ⟨h1, h2⟩ := h
      have h3 : c.toNat ≤ 90 := h2
      have h4 : 65 ≤ c.toNat := h1
      set n := c.toNat with hn
      interval_cases n <;> decide
  · exact beq_eq_false_iff_ne.mpr hc

theorem scanReplaceGo_nil (m : List Char → Option (List Char × List Char)) :
    ∀ fuel, scanReplaceGo m fuel [] = [] := by
  intro fuel
  cases fuel <;> rfl

theorem scanReplaceGo_append (m : List Char → Option (List Char × List Char)) :
    ∀ (A rest : List Char),
      (∀ k, k < A.length → m (A.drop k ++ rest) = none) →
      scanReplaceGo m (A.length + rest.length) (A ++ rest)
        = A ++ scanReplaceGo m rest.length rest := by
  intro A
  induction A with
  | nil => intro rest _; simp
  | cons c A2 ih =>
      intro rest h
      have heq : (c :: A2 : List Char).length + rest.length
          = (A2.length + rest.length) + 1 := by
        simp only [List.length_cons]
        omega
      rw [heq, show (c :: A2) ++ rest = c :: (A2 ++ rest) from rfl]
      have hnone : m (c :: (A2 ++ rest)) = none := h 0 (by simp)
      simp only [scanReplaceGo, hnone]
      exact congrArg (c :: ·) (ih rest (fun k hk => h (k + 1) (by simp; omega)))

theorem scanReplace_append (m : List Char → Option (List Char × List Char))
    (A rest : List Char) (h : ∀ k, k < A.length → m (A.drop k ++ rest) = none) :
    scanReplace m (A ++ rest) = A ++ scanReplace m rest := by
  unfold scanReplace
  rw [List.length_append]
  exact scanReplaceGo_append m A rest h

theorem matchCI_head_ne (ps : List Char) {c : Char} (hc : c ≠ '<') (cs : List Char) :
    matchCI ('<' :: ps) (c :: cs) = none := by
  unfold matchCI
  rw [toLower_ne_lt hc]
  rfl

theorem findCI_skip (ps : List Char) :
    ∀ (s tail : List Char), (∀ c ∈ s, c ≠ '<') →
      findCI ('<' :: ps) (('<' :: ps) ++ tail) = some tail →
      findCI ('<' :: ps) (s ++ (('<' :: ps) ++ tail)) = some tail := by
  intro s
  induction s with
  | nil => intro tail _ hself; exact hself
  | cons c s2 ih =>
      intro tail hmem hself
      rw [show (c :: s2) ++ (('<' :: ps) ++ tail) = c :: (s2 ++ (('<' :: ps) ++ tail)) from rfl]
      unfold findCI
      rw [matchCI_head_ne ps (hmem c (List.mem_cons_self _ _)) _]
      exact ih tail (fun x hx => hmem x (List.mem_cons_of_mem _ hx)) hself

theorem scriptMatcher_block (s : List Char) (hs : ∀ c ∈ s, c ≠ '<') :
    scriptMatcher ("<script>".data ++ (s ++ "</script>".data)) = some ([], []) := by
  unfold scriptMatcher tagBlockAt
  have h1 : matchCI "<script".data ("<script>".data ++ (s ++ "</script>".data))
      = some ('>' :: (s ++ "</script>".data)) := rfl
  have h2 : ('>' :: (s ++ "</script>".data)).dropWhile (fun x => x != '>')
      = '>' :: (s ++ "</script>".data) := rfl
  have hfind : findCI "</script>".data (s ++ ("</script>".data ++ []))
      = some [] := findCI_skip _ s [] hs rfl
  rw [List.append_nil] at hfind
  simp only [h1, h2, hfind]
  rfl

theorem removeScripts_wellFormed (s : List Char) (hs : ∀ c ∈ s, c ≠ '<') :
    scanReplace scriptMatcher
        ("<p>Hello</p>".data ++ ("<script>".data ++ (s ++ "</script>".data)))
      = "<p>Hello</p>".data := by
  rw [scanReplace_append scriptMatcher "<p>Hello</p>".data _ ?noMatch]
  case noMatch =>
    intro k hk
    rw [show ("<p>Hello</p>".data).length = 12 from rfl] at hk
    interval_cases k <;> rfl
  rw [show ("<script>".data ++ (s ++ "</script>".data))
      = '<' :: ("script>".data ++ (s ++ "</script>".data)) from rfl]
  unfold scanReplace
  simp only [List.length_cons, scanReplaceGo]
  rw [show scriptMatcher ('<' :: ("script>".data ++ (s ++ "</script>".data)))
      = some ([], []) from scriptMatcher_block s hs]
  simp only [List.nil_append, scanReplaceGo_nil, List.append_nil]

/-- A case-insensitive head match only inspects the first `pat.length`
characters, so a failure survives appending more text past them. -/
theorem matchCI_none_append :
    ∀ (pat u : List Char), pat.length ≤ u.length → matchCI pat u = none →
      ∀ tail, matchCI pat (u ++ tail) = none := by
  intro pat
  induction pat with
  | nil => intro u _ hnone; cases hnone
  | cons p ps ih =>
      intro u hlen hnone tail
      match u with
      | [] => simp at hlen
      | c :: cs =>
          rw [show (c :: cs) ++ tail = c :: (cs ++ tail) from rfl]
          unfold matchCI
          unfold matchCI at hnone
          by_cases hc : (c.toLower == p) = true
          · rw [hc] at hnone ⊢
            simp only [if_true]
            simp only [if_true] at hnone
            exact ih cs (by simpa using hlen) hnone tail
          · rw [Bool.eq_false_iff.mpr hc] at hnone ⊢
            simp

/-- A successful case-insensitive head match consumes exactly the pattern's
length. -/
theorem matchCI_length :
    ∀ (pat l r : List Char), matchCI pat l = some r → l.length = pat.length + r.length := by
  intro pat
  induction pat with
  | nil =>
      intro l r h
      unfold matchCI at h
      cases h
      simp
  | cons p ps ih =>
      intro l r h
      match l with
      | [] => cases h
      | c :: cs =>
          unfold matchCI at h
          by_cases hc : (c.toLower == p) = true
          · rw [hc] at h
            simp only [if_true] at h
            have := ih cs r h
            simp only [List.length_cons]
            omega
          · rw [Bool.eq_false_iff.mpr hc] at h
            simp at h

/-- The first-occurrence search never returns more than it was given. -/
theorem findCI_length :
    ∀ (pat l r : List Char), findCI pat l = some r → r.length ≤ l.length := by
  intro pat l
  induction l with
  | nil =>
      intro r h
      unfold findCI at h
      cases hm : matchCI pat [] with
      | none => rw [hm] at h; cases h
      | some r2 =>
          have hlen := matchCI_length pat [] r2 hm
          rw [hm] at h
          cases h
          simp at hlen
          omega
  | cons c cs ih =>
      intro r h
      unfold findCI at h
      cases hm : matchCI pat (c :: cs) with
      | some r2 =>
          have hlen := matchCI_length pat (c :: cs) r2 hm
          rw [hm] at h
          cases h
          simp only [List.length_cons] at hlen ⊢
          omega
      | none =>
          rw [hm] at h
          have := ih r h
          simp only [List.length_cons]
          omega

/-- When no occurrence of the (non-empty) pattern starts inside `s`, the
lazy search of `s ++ pat ++ tail` stops exactly at the written `pat`. -/
theorem findCI_at (pat : List Char) (hpat : pat ≠ []) :
    ∀ (s tail : List Char),
      (∀ i, i < s.length → matchCI pat ((s ++ pat).drop i) = none) →
      matchCI pat (pat ++ tail) = some tail →
      findCI pat (s ++ (pat ++ tail)) = some tail := by
  intro s
  induction s with
  | nil =>
      intro tail _ hself
      match pat, hpat with
      | q :: qs, _ =>
          rw [List.nil_append, show (q :: qs) ++ tail = q :: (qs ++ tail) from rfl]
          unfold findCI
          rw [show matchCI (q :: qs) (q :: (qs ++ tail)) = some tail from hself]
  | cons c s2 ih =>
      intro tail hs hself
      have hbase : matchCI pat ((c :: s2) ++ pat) = none := by
        have := hs 0 (by simp)
        simpa using this
      have hext : matchCI pat (((c :: s2) ++ pat) ++ tail) = none :=
        matchCI_none_append pat ((c :: s2) ++ pat)
          (by simp only [List.length_cons, List.length_append]; omega) hbase tail
      have hshape : ((c :: s2) ++ pat) ++ tail = c :: (s2 ++ (pat ++ tail)) := by
        simp [List.append_assoc]
      rw [hshape] at hext
      rw [show (c :: s2) ++ (pat ++ tail) = c :: (s2 ++ (pat ++ tail)) from rfl]
      unfold findCI
      rw [hext]
      exact ih tail (fun i hi => by
        have := hs (i + 1) (by simp only [List.length_cons]; omega)
        simpa using this) hself

/-- `[^>]*>` after the opening tag name: the drop-to-`>` scan passes over
the attribute text (no `>` in it) and stops at the written `>`. -/
theorem dropWhile_ne_gt :
    ∀ (attrs : List Char), '>' ∉ attrs →
      ∀ Z : List Char, (attrs ++ '>' :: Z).dropWhile (fun x => x != '>') = '>' :: Z := by
  intro attrs
  induction attrs with
  | nil => intro _ Z; rfl
  | cons a as ih =>
      intro ha Z
      have ha1 : a ≠ '>' := fun h => ha (h ▸ List.mem_cons_self _ _)
      have ha2 : '>' ∉ as := fun h => ha (List.mem_cons_of_mem _ h)
      rw [show (a :: as) ++ '>' :: Z = a :: (as ++ '>' :: Z) from rfl]
      rw [List.dropWhile_cons]
      rw [if_pos (by simpa using ha1)]
      exact ih ha2 Z

/-- A successful block match consumes at least one character. -/
theorem tagBlock_consumes (op cp : List Char) (hop : op ≠ []) :
    ∀ (l r : List Char), tagBlockAt op cp l = some r → r.length < l.length := by
  intro l r h
  unfold tagBlockAt at h
  split at h
  · cases h
  · rename_i r1 hm
    have hlen1 : l.length = op.length + r1.length := matchCI_length op l r1 hm
    have hopl : 1 ≤ op.length := by
      cases op with
      | nil => exact absurd rfl hop
      | cons _ _ => simp
    split at h
    · cases h
    · rename_i x r3 hd
      have hsub : (r1.dropWhile (fun x => x != '>')).length ≤ r1.length :=
        (List.dropWhile_sublist _).length_le
      rw [hd] at hsub
      simp only [List.length_cons] at hsub
      have := findCI_length cp r3 r h
      omega

/-- The script-block matcher consumes at least one character. -/
theorem scriptMatcher_consumes :
    ∀ (l : List Char) (rep r : List Char), scriptMatcher l = some (rep, r) →
      r.length < l.length := by
  intro l rep r h
  unfold scriptMatcher at h
  cases ht : tagBlockAt "<script".data "</script>".data l with
  | none => rw [ht] at h; cases h
  | some r2 =>
      rw [ht] at h
      have h2 : (some (([] : List Char), r2) : Option (List Char × List Char))
          = some (rep, r) := h
      have hr : r = r2 := by
        injection h2 with h3
        exact (congrArg Prod.snd h3).symm
      rw [hr]
      exact tagBlock_consumes _ _ (by decide) l r2 ht

/-- The style-block matcher consumes at least one character. -/
theorem styleMatcher_consumes :
    ∀ (l : List Char) (rep r : List Char), styleMatcher l = some (rep, r) →
      r.length < l.length := by
  intro l rep r h
  unfold styleMatcher at h
  cases ht : tagBlockAt "<style".data "</style>".data l with
  | none => rw [ht] at h; cases h
  | some r2 =>
      rw [ht] at h
      have h2 : (some (([] : List Char), r2) : Option (List Char × List Char))
          = some (rep, r) := h
      have hr : r = r2 := by
        injection h2 with h3
        exact (congrArg Prod.snd h3).symm
      rw [hr]
      exact tagBlock_consumes _ _ (by decide) l r2 ht

/-- For a matcher that always consumes, any fuel at least the input length
gives the canonical run. -/
theorem scanReplaceGo_canon (m : List Char → Option (List Char × List Char))
    (hm : ∀ l rep r, m l = some (rep, r) → r.length < l.length) :
    ∀ (N : Nat) (l : List Char) (fuel : Nat), l.length ≤ N → l.length ≤ fuel →
      scanReplaceGo m fuel l = scanReplaceGo m l.length l := by
  intro N
  induction N with
  | zero =>
      intro l fuel hN _
      have : l = [] := List.length_eq_zero.mp (Nat.le_zero.mp hN)
      subst this
      rw [scanReplaceGo_nil]
      rfl
  | succ N ihN =>
      intro l fuel hN hf
      cases l with
      | nil => rw [scanReplaceGo_nil]; rfl
      | cons c rest =>
          simp only [List.length_cons] at hN hf
          cases fuel with
          | zero => omega
          | succ fuel =>
              cases hml : m (c :: rest) with
              | some pr =>
                  obtain ⟨rep, r⟩ := pr
                  have hr : r.length < rest.length + 1 := by
                    have := hm _ _ _ hml
                    simpa using this
                  rw [show (c :: rest : List Char).length = rest.length + 1 from rfl]
                  simp only [scanReplaceGo, hml]
                  rw [ihN r fuel (by omega) (by omega)]
                  rw [ihN r rest.length (by omega) (by omega)]
              | none =>
                  rw [show (c :: rest : List Char).length = rest.length + 1 from rfl]
                  simp only [scanReplaceGo, hml]
                  rw [ihN rest fuel (by omega) (by omega)]

/-- A pass over a string whose head matches with empty replacement is the
pass over the returned remainder. -/
theorem scanReplace_fire (m : List Char → Option (List Char × List Char))
    (hm : ∀ l rep r, m l = some (rep, r) → r.length < l.length)
    (c : Char) (l2 rest : List Char) (hfire : m (c :: l2) = some ([], rest)) :
    scanReplace m (c :: l2) = scanReplace m rest := by
  unfold scanReplace
  rw [show (c :: l2 : List Char).length = l2.length + 1 from rfl]
  simp only [scanReplaceGo, hfire]
  have hr : rest.length < l2.length + 1 := hm _ _ _ hfire
  rw [scanReplaceGo_canon m hm l2.length rest l2.length (by omega) (by omega)]
  rfl

/-- A pass that never fires leaves the string unchanged. -/
theorem scanReplace_id (m : List Char → Option (List Char × List Char))
    (l : List Char) (h : ∀ k, k < l.length → m (l.drop k) = none) :
    scanReplace m l = l := by
  have h2 : ∀ k, k < l.length → m (l.drop k ++ []) = none := by
    intro k hk
    rw [List.append_nil]
    exact h k hk
  have h3 := scanReplace_append m l [] h2
  have h4 : scanReplace m [] = [] := rfl
  rw [h4, List.append_nil] at h3
  exact h3

/-- Dropping at most the first list's length distributes over append. -/
theorem drop_append_le : ∀ (p X : List Char) (k : Nat), k ≤ p.length →
    (p ++ X).drop k = p.drop k ++ X := by
  intro p
  induction p with
  | nil =>
      intro X k hk
      have : k = 0 := Nat.le_zero.mp hk
      subst this
      simp
  | cons a as ih =>
      intro X k hk
      cases k with
      | zero => simp
      | succ k2 =>
          rw [show (a :: as) ++ X = a :: (as ++ X) from rfl]
          rw [List.drop_succ_cons, List.drop_succ_cons]
          exact ih X k2 (by simpa using hk)

/-- The script matcher fires on a well-formed block — opening tag with
attribute text free of `>`, body in which no case-insensitive occurrence of
the literal closing tag starts, then the literal closing tag — and consumes
exactly the block. -/
theorem scriptMatcher_at (attrs body rest : List Char) (ha : '>' ∉ attrs)
    (hb : ∀ i, i < body.length →
      matchCI "</script>".data ((body ++ "</script>".data).drop i) = none) :
    scriptMatcher
        ("<script".data ++ (attrs ++ ('>' :: (body ++ ("</script>".data ++ rest)))))
      = some ([], rest) := by
  have h1 : matchCI "<script".data
        ("<script".data ++ (attrs ++ ('>' :: (body ++ ("</script>".data ++ rest)))))
      = some (attrs ++ ('>' :: (body ++ ("</script>".data ++ rest)))) := rfl
  simp only [scriptMatcher, tagBlockAt, h1, dropWhile_ne_gt attrs ha]
  rw [findCI_at "</script>".data (by decide) body rest hb rfl]
  rfl

/-- The style matcher fires on a well-formed block, symmetrically. -/
theorem styleMatcher_at (attrs body rest : List Char) (ha : '>' ∉ attrs)
    (hb : ∀ i, i < body.length →
      matchCI "</style>".data ((body ++ "</style>".data).drop i) = none) :
    styleMatcher
        ("<style".data ++ (attrs ++ ('>' :: (body ++ ("</style>".data ++ rest)))))
      = some ([], rest) := by
  have h1 : matchCI "<style".data
        ("<style".data ++ (attrs ++ ('>' :: (body ++ ("</style>".data ++ rest)))))
      = some (attrs ++ ('>' :: (body ++ ("</style>".data ++ rest)))) := rfl
  simp only [styleMatcher, tagBlockAt, h1, dropWhile_ne_gt attrs ha]
  rw [findCI_at "</style>".data (by decide) body rest hb rfl]
  rfl

/-- The pipeline after the script/style passes only sees their output: equal
outputs on non-empty inputs give equal final results. -/
theorem stripHtml_congr (o : StripOptions) (x y : List Char) (hx : x.isEmpty = false)
    (hy : y.isEmpty = false)
    (h : removeScriptsAndStyles x = removeScriptsAndStyles y) :
    stripHtmlRegex x o = stripHtmlRegex y o := by
  unfold stripHtmlRegex
  rw [if_neg (by simp [hx])]
  rw [if_neg (by simp [hy])]
  rw [h]

/-- A non-empty input whose script/style passes erase everything strips to
the empty string. -/
theorem stripHtml_nilRss (o : StripOptions) (x : List Char) (hx : x.isEmpty = false)
    (h : removeScriptsAndStyles x = []) : stripHtmlRegex x o = [] := by
  obtain ⟨pb, cw, de⟩ := o
  unfold stripHtmlRegex
  rw [if_neg (by simp [hx])]
  rw [h]
  cases pb <;> cases cw <;> cases de <;> rfl

/-- C6 amended, script part as a standalone step (shared by the claim
theorem): the whole block is erased by the script pass and the rest of the
document is scanned as if the block were absent. -/
theorem scanScript_removed (p attrs body rest : List Char) (ha : '>' ∉ attrs)
    (hb : ∀ i, i < body.length →
      matchCI "</script>".data ((body ++ "</script>".data).drop i) = none)
    (hp : ∀ k, k < p.length →
      scriptMatcher ((p ++ ("<script".data ++
        (attrs ++ ('>' :: (body ++ ("</script>".data ++ rest)))))).drop k) = none) :
    scanReplace scriptMatcher (p ++ ("<script".data ++
        (attrs ++ ('>' :: (body ++ ("</script>".data ++ rest))))))
      = p ++ scanReplace scriptMatcher rest := by
  have hfire := scriptMatcher_at attrs body rest ha hb
  rw [scanReplace_append scriptMatcher p _ (fun k hk => by
    rw [← drop_append_le p _ k (Nat.le_of_lt hk)]
    exact hp k hk)]
  congr 1
  exact scanReplace_fire scriptMatcher scriptMatcher_consumes '<'
    ("script".data ++ (attrs ++ ('>' :: (body ++ ("</script>".data ++ rest))))) rest hfire

/-- Style analogue of `scanScript_removed`. -/
theorem scanStyle_removed (p attrs body rest : List Char) (ha : '>' ∉ attrs)
    (hb : ∀ i, i < body.length →
      matchCI "</style>".data ((body ++ "</style>".data).drop i) = none)
    (hp : ∀ k, k < p.length →
      styleMatcher ((p ++ ("<style".data ++
        (attrs ++ ('>' :: (body ++ ("</style>".data ++ rest)))))).drop k) = none) :
    scanReplace styleMatcher (p ++ ("<style".data ++
        (attrs ++ ('>' :: (body ++ ("</style>".data ++ rest))))))
      = p ++ scanReplace styleMatcher rest := by
  have hfire := styleMatcher_at attrs body rest ha hb
  rw [scanReplace_append styleMatcher p _ (fun k hk => by
    rw [← drop_append_le p _ k (Nat.le_of_lt hk)]
    exact hp k hk)]
  congr 1
  exact scanReplace_fire styleMatcher styleMatcher_consumes '<'
    ("style".data ++ (attrs ++ ('>' :: (body ++ ("</style>".data ++ rest))))) rest hfire

/-- C6 amended: the regex variant removes the content of every well-formed
literal script or style block, wherever it sits in the document, for every
options value: for any options, any prefix in which the block pass matches
at no position (of either document), any opening-tag attribute text without
`>`, any body in which no case-insensitive occurrence of the literal closing
tag starts (bodies may contain `<`), and any suffix, the output equals that
of the same document with the whole block deleted — repeated application
removes several blocks in turn.  For a style block the script pass is
additionally required to match nowhere, since it runs first.  A closing tag
with extra characters (e.g. `</script >`) or a missing one defeats this, as
the counterexample records. -/
theorem C6_script_content_removed :
    (∀ (o : StripOptions) (p attrs body rest : List Char),
      '>' ∉ attrs →
      (∀ i, i < body.length →
        matchCI "</script>".data ((body ++ "</script>".data).drop i) = none) →
      (∀ k, k < p.length →
        scriptMatcher ((p ++ ("<script".data ++
          (attrs ++ ('>' :: (body ++ ("</script>".data ++ rest)))))).drop k) = none) →
      (∀ k, k < p.length → scriptMatcher ((p ++ rest).drop k) = none) →
      stripHtmlRegex (p ++ ("<script".data ++
          (attrs ++ ('>' :: (body ++ ("</script>".data ++ rest)))))) o
        = stripHtmlRegex (p ++ rest) o) ∧
    (∀ (o : StripOptions) (p attrs body rest : List Char),
      '>' ∉ attrs →
      (∀ i, i < body.length →
        matchCI "</style>".data ((body ++ "</style>".data).drop i) = none) →
      (∀ k, k < (p ++ ("<style".data ++
          (attrs ++ ('>' :: (body ++ ("</style>".data ++ rest)))))).length →
        scriptMatcher ((p ++ ("<style".data ++
          (attrs ++ ('>' :: (body ++ ("</style>".data ++ rest)))))).drop k) = none) →
      (∀ k, k < (p ++ rest).length → scriptMatcher ((p ++ rest).drop k) = none) →
      (∀ k, k < p.length →
        styleMatcher ((p ++ ("<style".data ++
          (attrs ++ ('>' :: (body ++ ("</style>".data ++ rest)))))).drop k) = none) →
      (∀ k, k < p.length → styleMatcher ((p ++ rest).drop k) = none) →
      stripHtmlRegex (p ++ ("<style".data ++
          (attrs ++ ('>' :: (body ++ ("</style>".data ++ rest)))))) o
        = stripHtmlRegex (p ++ rest) o) := by
  constructor
  · intro o p attrs body rest ha hb hp1 hp2
    have hrss : removeScriptsAndStyles (p ++ ("<script".data ++
        (attrs ++ ('>' :: (body ++ ("</script>".data ++ rest))))))
        = removeScriptsAndStyles (p ++ rest) := by
      unfold removeScriptsAndStyles
      rw [scanScript_removed p attrs body rest ha hb hp1]
      rw [scanReplace_append scriptMatcher p rest (fun k hk => by
        rw [← drop_append_le p rest k (Nat.le_of_lt hk)]
        exact hp2 k hk)]
    have hxe : (p ++ ("<script".data ++
        (attrs ++ ('>' :: (body ++ ("</script>".data ++ rest)))))).isEmpty = false := by
      cases p <;> rfl
    cases hpr : p ++ rest with
    | nil =>
        rw [hpr] at hrss
        have hnil : removeScriptsAndStyles ([] : List Char) = [] := rfl
        rw [hnil] at hrss
        rw [stripHtml_nilRss o _ hxe hrss]
        rfl
    | cons c ys =>
        rw [hpr] at hrss
        exact stripHtml_congr o _ _ hxe rfl hrss
  · intro o p attrs body rest ha hb hsc1 hsc2 hst1 hst2
    have hidL : scanReplace scriptMatcher (p ++ ("<style".data ++
        (attrs ++ ('>' :: (body ++ ("</style>".data ++ rest))))))
        = p ++ ("<style".data ++ (attrs ++ ('>' :: (body ++ ("</style>".data ++ rest))))) :=
      scanReplace_id scriptMatcher _ hsc1
    have hidR : scanReplace scriptMatcher (p ++ rest) = p ++ rest :=
      scanReplace_id scriptMatcher _ hsc2
    have hrss : removeScriptsAndStyles (p ++ ("<style".data ++
        (attrs ++ ('>' :: (body ++ ("</style>".data ++ rest))))))
        = removeScriptsAndStyles (p ++ rest) := by
      unfold removeScriptsAndStyles
      rw [hidL, hidR]
      rw [scanStyle_removed p attrs body rest ha hb hst1]
      rw [scanReplace_append styleMatcher p rest (fun k hk => by
        rw [← drop_append_le p rest k (Nat.le_of_lt hk)]
        exact hst2 k hk)]
    have hxe : (p ++ ("<style".data ++
        (attrs ++ ('>' :: (body ++ ("</style>".data ++ rest)))))).isEmpty = false := by
      cases p <;> rfl
    cases hpr : p ++ rest with
    | nil =>
        rw [hpr] at hrss
        have hnil : removeScriptsAndStyles ([] : List Char) = [] := rfl
        rw [hnil] at hrss
        rw [stripHtml_nilRss o _ hxe hrss]
        rfl
    | cons c ys =>
        rw [hpr] at hrss
        exact stripHtml_congr o _ _ hxe rfl hrss

/-- Witness for C6's amended theorem: a script block with an attribute and a
`<` inside its body vanishes from the middle of a document, and a style
block at the end of a document vanishes, each under default options. -/
theorem C6_script_content_removed_witness :
    stripHtmlRegex ("<p>Hello</p>".data ++ ("<script".data ++
        (" type=m".data ++ ('>' :: ("if (a<b) x();".data ++
          ("</script>".data ++ "<b>World</b>".data)))))) {}
      = stripHtmlRegex ("<p>Hello</p>".data ++ "<b>World</b>".data) {} ∧
    stripHtmlRegex ("<p>Hello</p>".data ++ ("<style".data ++
        ([] ++ ('>' :: (".a color red".data ++ ("</style>".data ++ [])))))) {}
      = stripHtmlRegex ("<p>Hello</p>".data ++ []) {} :=
  ⟨C6_script_content_removed.1 {} "<p>Hello</p>".data " type=m".data
      "if (a<b) x();".data "<b>World</b>".data (by decide) (by decide)
      (by decide) (by decide),
   C6_script_content_removed.2 {} "<p>Hello</p>".data [] ".a color red".data []
      (by decide) (by decide) (by decide) (by decide) (by decide) (by decide)⟩

/-! ## C10: store and readback lemmas -/

theorem getq_of_pre {store st2 : MStore} (h : store <+: st2) {i : Nat}
    (hi : i < store.length) : st2.get? i = store.get? i := by
  obtain ⟨t, rfl⟩ := h
  simp only [List.get?_eq_getElem?]
  exact List.getElem?_append_left hi

theorem prefix_length_le {store st2 : MStore} (h : store <+: st2) :
    store.length ≤ st2.length := by
  obtain ⟨t, rfl⟩ := h
  simp [List.length_append]

theorem get?_mem_some {store : MStore} {i : Nat} (hi : i < store.length) :
    ∃ obj, store.get? i = some obj := by
  simp only [List.get?_eq_getElem?]
  exact ⟨store[i], List.getElem?_eq_getElem hi⟩

theorem wf_fields {store : MStore} (hwf : WfStore store) {i : Nat} {obj : List (String × MVal)}
    (hget : store.get? i = some obj) (hi : i < store.length) : FieldsOk store obj := by
  intro k id hmem
  exact lt_trans (hwf i obj hget k id hmem) hi

theorem readF_extend {store st2 : MStore} (hwf : WfStore store) (hpre : store <+: st2) :
    ∀ (fuel : Nat) (v : MVal), ValOk store v → readF fuel st2 v = readF fuel store v := by
  intro fuel
  induction fuel with
  | zero => intro v _; rfl
  | succ fuel ih =>
      intro v hv
      match v with
      | .mprim p => rfl
      | .mref id =>
          have hid : id < store.length := hv
          simp only [readF, getq_of_pre hpre hid]
          obtain ⟨obj, hobj⟩ := get?_mem_some hid
          rw [hobj]
          simp only [Option.getD_some]
          congr 1
          apply List.map_congr_left
          intro kv hkv
          have : ValOk store kv.2 := by
            match hkv2 : kv.2 with
            | .mprim _ => trivial
            | .mref id2 =>
                have : (kv.1, MVal.mref id2) ∈ obj := by
                  rw [← hkv2]
                  exact hkv
                exact lt_trans (hwf id obj hobj kv.1 id2 this) hid
          rw [ih kv.2 this]

theorem readF_stable {store : MStore} (hwf : WfStore store) :
    ∀ (id : Nat), id < store.length →
      ∀ f1 f2, id + 2 ≤ f1 → id + 2 ≤ f2 →
        readF f1 store (.mref id) = readF f2 store (.mref id) := by
  intro id
  induction id using Nat.strong_induction_on with
  | _ id ih =>
      intro hid f1 f2 hf1 hf2
      obtain ⟨g1, rfl⟩ : ∃ g1, f1 = g1 + 1 := ⟨f1 - 1, by omega⟩
      obtain ⟨g2, rfl⟩ : ∃ g2, f2 = g2 + 1 := ⟨f2 - 1, by omega⟩
      simp only [readF]
      obtain ⟨obj, hobj⟩ := get?_mem_some hid
      rw [hobj]
      simp only [Option.getD_some]
      congr 1
      apply List.map_congr_left
      intro kv hkv
      match hkv2 : kv.2 with
      | .mprim p =>
          obtain ⟨e1, rfl⟩ : ∃ e1, g1 = e1 + 1 := ⟨g1 - 1, by omega⟩
          obtain ⟨e2, rfl⟩ : ∃ e2, g2 = e2 + 1 := ⟨g2 - 1, by omega⟩
          rfl
      | .mref id2 =>
          have hmem : (kv.1, MVal.mref id2) ∈ obj := by
            rw [← hkv2]
            exact hkv
          have hid2 : id2 < id := hwf id obj hobj kv.1 id2 hmem
          have : id2 < store.length := lt_trans hid2 hid
          rw [ih id2 hid2 this g1 g2 (by omega) (by omega)]

theorem readV_extend {store st2 : MStore} (hwf : WfStore store) (hpre : store <+: st2)
    {v : MVal} (hv : ValOk store v) : readV st2 v = readV store v := by
  match v with
  | .mprim p =>
      unfold readV
      obtain ⟨e1, h1⟩ : ∃ e1, st2.length + 1 = e1 + 1 := ⟨st2.length, rfl⟩
      rw [h1]
      rfl
  | .mref id =>
      have hid : id < store.length := hv
      unfold readV
      rw [readF_extend hwf hpre _ _ hv]
      have hle := prefix_length_le hpre
      exact readF_stable hwf id hid _ _ (by omega) (by omega)

theorem readFieldsV_extend {store st2 : MStore} (hwf : WfStore store) (hpre : store <+: st2)
    {fs : List (String × MVal)} (hfs : FieldsOk store fs) :
    readFieldsV st2 fs = readFieldsV store fs := by
  unfold readFieldsV
  apply List.map_congr_left
  intro kv hkv
  have hv : ValOk store kv.2 := by
    match hkv2 : kv.2 with
    | .mprim _ => trivial
    | .mref id =>
        apply hfs kv.1 id
        rw [← hkv2]
        exact hkv
  rw [readV_extend hwf hpre hv]

theorem readV_prim (store : MStore) (p : MPrim) : readV store (.mprim p) = .leaf p := by
  unfold readV
  obtain ⟨e1, h1⟩ : ∃ e1, store.length + 1 = e1 + 1 := ⟨store.length, rfl⟩
  rw [h1]
  rfl

theorem readV_mref {store : MStore} (hwf : WfStore store) {sid : Nat}
    (hsid : sid < store.length) :
    readV store (.mref sid) = .node (readFieldsV store ((store.get? sid).getD [])) := by
  unfold readV
  simp only [readF]
  obtain ⟨obj, hobj⟩ := get?_mem_some hsid
  rw [hobj]
  simp only [Option.getD_some]
  congr 1
  unfold readFieldsV
  apply List.map_congr_left
  intro kv hkv
  match hkv2 : kv.2 with
  | .mprim p =>
      rw [readV_prim]
      obtain ⟨m, hm⟩ : ∃ m, store.length = m + 1 := ⟨store.length - 1, by omega⟩
      rw [hm]
      rfl
  | .mref id2 =>
      have hmem : (kv.1, MVal.mref id2) ∈ obj := by
        rw [← hkv2]
        exact hkv
      have hid2 : id2 < sid := hwf sid obj hobj kv.1 id2 hmem
      have hgoal : readF store.length store (.mref id2) = readV store (.mref id2) := by
        unfold readV
        exact readF_stable hwf id2 (lt_trans hid2 hsid) store.length (store.length + 1)
          (by omega) (by omega)
      rw [hgoal]

theorem wf_append {st2 : MStore} (hwf : WfStore st2) {acc : List (String × MVal)}
    (hacc : FieldsOk st2 acc) : WfStore (st2 ++ [acc]) := by
  intro i obj hget k id hmem
  by_cases hi : i < st2.length
  · rw [getq_of_pre ⟨[acc], rfl⟩ hi] at hget
    exact hwf i obj hget k id hmem
  · by_cases hi2 : i = st2.length
    · subst hi2
      rw [show (st2 ++ [acc]).get? st2.length = some acc by
        simp only [List.get?_eq_getElem?]
        exact List.getElem?_concat_length st2 acc] at hget
      cases hget
      exact hacc k id hmem
    · rw [show (st2 ++ [acc]).get? i = none by
        apply List.get?_eq_none.mpr
        simp only [List.length_append, List.length_cons, List.length_nil]
        omega] at hget
      cases hget

theorem lookup_readFieldsV (store : MStore) (fs : List (String × MVal)) (k : String) :
    (readFieldsV store fs).lookup k = (fs.lookup k).map (readV store) := by
  induction fs with
  | nil => rfl
  | cons kv rest ih =>
      unfold readFieldsV
      simp only [List.map_cons, List.lookup]
      by_cases hk : k == kv.1
      · simp [hk]
      · simp only [Bool.not_eq_true] at hk
        simp [hk]
        exact ih

theorem readFieldsV_setField (store : MStore) (acc : List (String × MVal)) (k : String)
    (v : MVal) :
    readFieldsV store (setField acc k v) = setFieldT (readFieldsV store acc) k (readV store v) := by
  induction acc with
  | nil => rfl
  | cons kv rest ih =>
      unfold setField
      by_cases hk : kv.1 = k
      · rw [if_pos hk]
        unfold readFieldsV setFieldT
        simp only [List.map_cons]
        rw [if_pos hk]
      · rw [if_neg hk]
        unfold readFieldsV setFieldT
        simp only [List.map_cons]
        rw [if_neg hk]
        unfold readFieldsV at ih
        rw [← ih]

theorem fieldsOk_setField {store : MStore} {acc : List (String × MVal)}
    (hacc : FieldsOk store acc) {v : MVal} (hv : ValOk store v) (k : String) :
    FieldsOk store (setField acc k v) := by
  induction acc with
  | nil =>
      intro k0 id hmem
      unfold setField at hmem
      rcases List.mem_singleton.mp hmem with h
      cases h
      exact hv
  | cons kv rest ih =>
      intro k0 id hmem
      unfold setField at hmem
      by_cases hk : kv.1 = k
      · rw [if_pos hk] at hmem
        rcases List.mem_cons.mp hmem with h | h
        · cases h
          exact hv
        · exact hacc k0 id (List.mem_cons_of_mem _ h)
      · rw [if_neg hk] at hmem
        rcases List.mem_cons.mp hmem with h | h
        · exact hacc k0 id (h ▸ List.mem_cons_self _ _)
        · exact ih (fun k1 id1 hm => hacc k1 id1 (List.mem_cons_of_mem _ hm)) k0 id h

theorem fieldsOk_extend {store st2 : MStore} (hpre : store <+: st2)
    {fs : List (String × MVal)} (hfs : FieldsOk store fs) : FieldsOk st2 fs :=
  fun k id hmem => lt_of_lt_of_le (hfs k id hmem) (prefix_length_le hpre)

theorem valOk_lookupVal {store : MStore} {tf : List (String × MVal)}
    (htf : FieldsOk store tf) (k : String) : ValOk store (lookupVal tf k) := by
  unfold lookupVal
  induction tf with
  | nil => trivial
  | cons kv rest ih =>
      simp only [List.lookup]
      by_cases hk : k == kv.1
      · simp only [hk, if_true]
        match hkv : kv.2 with
        | .mprim _ => trivial
        | .mref id =>
            apply htf kv.1 id
            rw [← hkv]
            exact List.mem_cons_self _ _
      · simp only [Bool.not_eq_true] at hk
        simp only [hk, Bool.false_eq_true, if_false]
        exact ih (fun k1 id1 hm => htf k1 id1 (List.mem_cons_of_mem _ hm))

theorem spreadFields_fieldsOk {store : MStore} (hwf : WfStore store) {tv : MVal}
    (htv : ValOk store tv) : FieldsOk store (spreadFields store tv) := by
  match tv with
  | .mref id =>
      have hid : id < store.length := htv
      obtain ⟨obj, hobj⟩ := get?_mem_some hid
      show FieldsOk store ((store.get? id).getD [])
      rw [hobj]
      simp only [Option.getD_some]
      exact wf_fields hwf hobj hid
  | .mprim (.mstr sstr) =>
      intro k id hmem
      simp only [spreadFields, List.mem_map] at hmem
      obtain ⟨ic, _, heq⟩ := hmem
      cases heq
  | .mprim (.mnum _) => intro k id hmem; cases hmem
  | .mprim (.mbool _) => intro k id hmem; cases hmem
  | .mprim .mnull => intro k id hmem; cases hmem
  | .mprim (.marr _) => intro k id hmem; cases hmem

theorem wfStore_of_B {store : MStore} (h : wfStoreB store = true) : WfStore store := by
  intro i obj hget k id hmem
  have henum : (i, obj) ∈ store.enum := by
    rw [List.mk_mem_enum_iff_getElem?]
    rw [← List.get?_eq_getElem?]
    exact hget
  unfold wfStoreB at h
  rw [List.all_eq_true] at h
  have h2 := h (i, obj) henum
  rw [List.all_eq_true] at h2
  have h3 := h2 (k, MVal.mref id) hmem
  simpa using h3

theorem spreadFields_of_pre {store st2 : MStore} (hpre : store <+: st2) {tv : MVal}
    (htv : ValOk store tv) : spreadFields st2 tv = spreadFields store tv := by
  match tv with
  | .mref id =>
      show (st2.get? id).getD [] = (store.get? id).getD []
      rw [getq_of_pre hpre htv]
  | .mprim (.mstr s) => rfl
  | .mprim (.mnum n) => rfl
  | .mprim (.mbool b) => rfl
  | .mprim .mnull => rfl
  | .mprim (.marr t) => rfl

theorem compat_extend : ∀ fuel : Nat,
    (∀ (store st2 : MStore) (tv : MVal) (sid : Nat),
      WfStore store → store <+: st2 → ValOk store tv → sid < store.length →
      compatF fuel st2 tv sid = compatF fuel store tv sid) ∧
    (∀ (store st2 : MStore) (tf sf : List (String × MVal)),
      WfStore store → store <+: st2 → FieldsOk store tf → FieldsOk store sf →
      compatFoldF fuel st2 tf sf = compatFoldF fuel store tf sf) := by
  intro fuel
  induction fuel with
  | zero => exact ⟨fun _ _ _ _ _ _ _ _ => rfl, fun _ _ _ _ _ _ _ _ => rfl⟩
  | succ fuel ih =>
      constructor
      · intro store st2 tv sid hwf hpre htv hsid
        simp only [compatF]
        obtain ⟨sf, hsf⟩ := get?_mem_some hsid
        rw [getq_of_pre hpre hsid, hsf, spreadFields_of_pre hpre htv]
        congr 1
        exact ih.2 store st2 _ sf hwf hpre (spreadFields_fieldsOk hwf htv)
          (wf_fields hwf hsf hsid)
      · intro store st2 tf sf hwf hpre htf hsf
        match sf with
        | [] => rfl
        | (k, sv) :: rest =>
            simp only [compatFoldF]
            have hrest : FieldsOk store rest :=
              fun k1 id1 hm => hsf k1 id1 (List.mem_cons_of_mem _ hm)
            match sv with
            | .mref svId =>
                show (compatF fuel st2 (lookupVal tf k) svId && compatFoldF fuel st2 tf rest)
                  = (compatF fuel store (lookupVal tf k) svId && compatFoldF fuel store tf rest)
                rw [ih.1 store st2 (lookupVal tf k) svId hwf hpre (valOk_lookupVal htf k)
                  (hsf k svId (List.mem_cons_self _ _))]
                rw [ih.2 store st2 tf rest hwf hpre htf hrest]
            | .mprim p =>
                show compatFoldF fuel st2 tf rest = compatFoldF fuel store tf rest
                exact ih.2 store st2 tf rest hwf hpre htf hrest

theorem getFieldT_read (store : MStore) (tf : List (String × MVal)) (k : String) :
    getFieldT (readFieldsV store tf) k = readV store (lookupVal tf k) := by
  unfold getFieldT lookupVal
  rw [lookup_readFieldsV]
  cases htf : tf.lookup k <;> rfl

theorem merge_main : ∀ fuel : Nat,
    (∀ (store : MStore) (tv : MVal) (sid : Nat) (st' : MStore) (rid : Nat),
      WfStore store → ValOk store tv → sid < store.length →
      compatF fuel store tv sid = true →
      deepMergeF fuel store tv sid = some (st', rid) →
      store <+: st' ∧ WfStore st' ∧ store.length ≤ rid ∧ rid < st'.length ∧
      readV st' (.mref rid) = specMergeF fuel (readV store tv) (readV store (.mref sid))) ∧
    (∀ (store : MStore) (tf sf acc : List (String × MVal)) (st2 : MStore)
        (accOut : List (String × MVal)),
      WfStore store → FieldsOk store tf → FieldsOk store sf → FieldsOk store acc →
      compatFoldF fuel store tf sf = true →
      mergeFoldF fuel store tf sf acc = some (st2, accOut) →
      store <+: st2 ∧ WfStore st2 ∧ FieldsOk st2 accOut ∧
      readFieldsV st2 accOut
        = specFoldF fuel (readFieldsV store tf) (readFieldsV store sf)
            (readFieldsV store acc)) := by
  intro fuel
  induction fuel with
  | zero =>
      constructor
      · intro store tv sid st' rid _ _ _ _ hmerge
        cases hmerge
      · intro store tf sf acc st2 accOut _ _ _ _ _ hfold
        cases hfold
  | succ fuel ih =>
      constructor
      · intro store tv sid st' rid hwf htv hsid hcompat hmerge
        obtain ⟨sf, hsf⟩ := get?_mem_some hsid
        simp only [deepMergeF, hsf] at hmerge
        simp only [compatF, hsf, Bool.and_eq_true] at hcompat
        obtain ⟨htvc, hcfold⟩ := hcompat
        cases hfold : mergeFoldF fuel store (spreadFields store tv) sf (spreadFields store tv) with
        | none => rw [hfold] at hmerge; cases hmerge
        | some pr =>
            obtain ⟨st2, acc⟩ := pr
            rw [hfold] at hmerge
            simp only [Option.some.injEq, Prod.mk.injEq] at hmerge
            obtain ⟨h1, h2⟩ := hmerge
            subst h1
            subst h2
            have htfF : FieldsOk store (spreadFields store tv) := spreadFields_fieldsOk hwf htv
            have hsfF : FieldsOk store sf := wf_fields hwf hsf hsid
            obtain ⟨hpre2, hwf2, haccF, hread2⟩ :=
              ih.2 store (spreadFields store tv) sf (spreadFields store tv) st2 acc
                hwf htfF hsfF htfF hcfold hfold
            have hpre3 : st2 <+: st2 ++ [acc] := ⟨[acc], rfl⟩
            have hwf3 : WfStore (st2 ++ [acc]) := wf_append hwf2 haccF
            have hlen3 : (st2 ++ [acc]).length = st2.length + 1 := by
              simp [List.length_append]
            refine ⟨hpre2.trans hpre3, hwf3, prefix_length_le hpre2, by omega, ?_⟩
            have hget_rid : (st2 ++ [acc]).get? st2.length = some acc := by
              simp only [List.get?_eq_getElem?]
              exact List.getElem?_concat_length st2 acc
            have hL : readV (st2 ++ [acc]) (.mref st2.length)
                = .node (specFoldF fuel (readFieldsV store (spreadFields store tv))
                    (readFieldsV store sf) (readFieldsV store (spreadFields store tv))) := by
              rw [readV_mref hwf3 (by omega), hget_rid]
              simp only [Option.getD_some]
              rw [readFieldsV_extend hwf2 hpre3 haccF, hread2]
            have htfm : (match readV store tv with
                | .node f => f
                | .leaf _ => []) = readFieldsV store (spreadFields store tv) := by
              match tv with
              | .mref id =>
                  rw [readV_mref hwf htv]
                  rfl
              | .mprim (.mstr sstr) =>
                  have hse : sstr.isEmpty = true := by simpa using htvc
                  have : sstr = [] := List.isEmpty_iff.mp hse
                  subst this
                  rw [readV_prim]
                  rfl
              | .mprim (.mnum n) => rw [readV_prim]; rfl
              | .mprim (.mbool b) => rw [readV_prim]; rfl
              | .mprim .mnull => rw [readV_prim]; rfl
              | .mprim (.marr t) => rw [readV_prim]; rfl
            have hR : specMergeF (fuel + 1) (readV store tv) (readV store (.mref sid))
                = .node (specFoldF fuel (readFieldsV store (spreadFields store tv))
                    (readFieldsV store sf) (readFieldsV store (spreadFields store tv))) := by
              rw [readV_mref hwf hsid, hsf]
              simp only [Option.getD_some, specMergeF]
              rw [htfm]
            rw [hL, hR]
      · intro store tf sf acc st2 accOut hwf htf hsf hacc hcompat hfold
        match sf with
        | [] =>
            simp only [mergeFoldF, Option.some.injEq, Prod.mk.injEq] at hfold
            obtain ⟨h1, h2⟩ := hfold
            subst h1
            subst h2
            exact ⟨List.prefix_refl store, hwf, hacc, rfl⟩
        | (k, .mprim p) :: rest =>
            simp only [mergeFoldF] at hfold
            simp only [compatFoldF] at hcompat
            have hrestF : FieldsOk store rest :=
              fun k1 id1 hm => hsf k1 id1 (List.mem_cons_of_mem _ hm)
            have haccF : FieldsOk store (setField acc k (.mprim p)) :=
              fieldsOk_setField hacc (show ValOk store (.mprim p) from trivial) k
            obtain ⟨hpre2, hwf2, haccOut, hread2⟩ :=
              ih.2 store tf rest (setField acc k (.mprim p)) st2 accOut
                hwf htf hrestF haccF hcompat hfold
            refine ⟨hpre2, hwf2, haccOut, ?_⟩
            rw [hread2, readFieldsV_setField, readV_prim]
            rfl
        | (k, .mref svId) :: rest =>
            simp only [mergeFoldF] at hfold
            simp only [compatFoldF, Bool.and_eq_true] at hcompat
            obtain ⟨hc1, hc2⟩ := hcompat
            have hrestF : FieldsOk store rest :=
              fun k1 id1 hm => hsf k1 id1 (List.mem_cons_of_mem _ hm)
            have hsvId : svId < store.length := hsf k svId (List.mem_cons_self _ _)
            cases hdm : deepMergeF fuel store (lookupVal tf k) svId with
            | none => rw [hdm] at hfold; cases hfold
            | some prM =>
                obtain ⟨stM, rid⟩ := prM
                rw [hdm] at hfold
                obtain ⟨hpreM, hwfM, hridGe, hridLt, hreadM⟩ :=
                  ih.1 store (lookupVal tf k) svId stM rid hwf (valOk_lookupVal htf k)
                    hsvId hc1 hdm
                have htfM : FieldsOk stM tf := fieldsOk_extend hpreM htf
                have hrestM : FieldsOk stM rest := fieldsOk_extend hpreM hrestF
                have haccM : FieldsOk stM (setField acc k (.mref rid)) :=
                  fieldsOk_setField (fieldsOk_extend hpreM hacc)
                    (show ValOk stM (.mref rid) from hridLt) k
                have hcomp2 : compatFoldF fuel stM tf rest = true := by
                  rw [(compat_extend fuel).2 store stM tf rest hwf hpreM htf hrestF]
                  exact hc2
                obtain ⟨hpre2, hwf2, haccOut, hread2⟩ :=
                  ih.2 stM tf rest (setField acc k (.mref rid)) st2 accOut
                    hwfM htfM hrestM haccM hcomp2 hfold
                refine ⟨hpreM.trans hpre2, hwf2, haccOut, ?_⟩
                rw [hread2]
                rw [readFieldsV_extend hwf hpreM htf]
                rw [readFieldsV_extend hwf hpreM hrestF]
                rw [readFieldsV_setField]
                rw [show readFieldsV stM acc = readFieldsV store acc from
                  readFieldsV_extend hwf hpreM hacc]
                rw [hreadM]
                have hnode : readV store (.mref svId)
                    = .node (readFieldsV store ((store.get? svId).getD [])) :=
                  readV_mref hwf hsvId
                show _ = specFoldF (fuel + 1) (readFieldsV store tf)
                    ((k, readV store (.mref svId)) :: readFieldsV store rest)
                    (readFieldsV store acc)
                rw [hnode]
                simp only [specFoldF]
                rw [← hnode, getFieldT_read]

/-- C10: in the store model, `deepMerge` never mutates either argument —
the input store is a prefix of the output store, so every pre-existing
object (in particular every nested object of target and source) is
unchanged — it returns a freshly allocated object (its index is past the
old store), and the result reads back as the claim's merge: every key of
the source overrides the corresponding key of the target, recursively for
plain-object source values, so nested defaults survive partial overrides.
Hypotheses: a stratified well-formed store, valid references, enough fuel
for the recursion to complete (otherwise the source would not return), and
compatibility (no non-empty string and no array meets a plain-object
source value: for both, JS's spread `{...target}` contributes indexed
element fields, behaviour outside the claim). -/
theorem C10_deepMerge_no_mutation (fuel : Nat) (store : MStore) (tv : MVal) (sid : Nat)
    (st' : MStore) (rid : Nat)
    (hwf : WfStore store) (htv : ValOk store tv) (hsid : sid < store.length)
    (hcompat : compatF fuel store tv sid = true)
    (hmerge : deepMergeF fuel store tv sid = some (st', rid)) :
    store <+: st' ∧ WfStore st' ∧ store.length ≤ rid ∧ rid < st'.length ∧
    readV st' (.mref rid) = specMergeF fuel (readV store tv) (readV store (.mref sid)) :=
  (merge_main fuel).1 store tv sid st' rid hwf htv hsid hcompat hmerge

/-- Witness for C10 at the concrete example store: the merged object is
allocated at index 5 and the old four objects are untouched. -/
theorem C10_deepMerge_no_mutation_witness :
    mergeExampleStore <+: mergeExampleStore ++
        [[("x", MVal.mprim (.mnum 1)), ("y", MVal.mprim (.mnum 3))],
         [("a", MVal.mprim (.mnum 1)), ("nested", MVal.mref 4), ("b", MVal.mprim (.mnum 2))]] ∧
    WfStore (mergeExampleStore ++
        [[("x", MVal.mprim (.mnum 1)), ("y", MVal.mprim (.mnum 3))],
         [("a", MVal.mprim (.mnum 1)), ("nested", MVal.mref 4), ("b", MVal.mprim (.mnum 2))]]) ∧
    mergeExampleStore.length ≤ 5 ∧
    5 < (mergeExampleStore ++
        [[("x", MVal.mprim (.mnum 1)), ("y", MVal.mprim (.mnum 3))],
         [("a", MVal.mprim (.mnum 1)), ("nested", MVal.mref 4),
          ("b", MVal.mprim (.mnum 2))]]).length ∧
    readV (mergeExampleStore ++
        [[("x", MVal.mprim (.mnum 1)), ("y", MVal.mprim (.mnum 3))],
         [("a", MVal.mprim (.mnum 1)), ("nested", MVal.mref 4), ("b", MVal.mprim (.mnum 2))]])
        (.mref 5)
      = specMergeF 10 (readV mergeExampleStore (.mref 1))
          (readV mergeExampleStore (.mref 3)) :=
  C10_deepMerge_no_mutation 10 mergeExampleStore (.mref 1) 3 _ 5
    (wfStore_of_B (by decide))
    (show (1 : Nat) < mergeExampleStore.length by decide)
    (by decide)
    (by decide)
    (by decide)

end MSearch
